import Mathlib

/-!
Verification of the shoppink-backend stock / variant core.

The definitions below are a shallow embedding of the JavaScript source:

* `src/services/stockManagementService.js` — variant resolution and the
  per-bucket stock mutations (`resolveVariantId`, `deductVariantStock`,
  `restoreVariantStock`, `deductProductStock`, `restoreProductStock`,
  `deductStockForItem`, `restoreStockForItem`, the per-order loops and
  `validateStockForOrder`).
* `src/routes/blacklist-phones.js` — the order-state, driver-assignment and
  order-deletion handlers (the parts that touch order state and stock).
* `src/prisma/seed.js` (hierarchicalStockService) — variant generation
  (`createOrUpdateVariant`, `generateVariantsForProduct`) and the
  hierarchical total (`calculateHierarchicalTotalStock`).
* `src/unnamed/part_005` (product-options router) — option-group deletion
  cascade and the option-group create/update parent checks.

Database rows are lists of records; a prisma `update` on a unique id is a
map over the list rewriting the matching row; a thrown JS error is the
`Except.error` / response-status branch.  JS `Set` operations over option-id
sets are rendered with `List.dedup` (size) and membership tests.
-/

set_option maxHeartbeats 1000000

namespace Shoppink

/-- Product row: the fields of `Product` used by the stock engine
(flat stock lives in `quantity`). -/
structure PRow where
  id : Nat
  quantity : Int
deriving DecidableEq, Repr

/-- Product-variant row joined with its `ProductVariantOption` rows:
`options` is the list of option ids linked to the variant. -/
structure VRow where
  id : Nat
  productId : Nat
  stock : Int
  options : List Nat
deriving DecidableEq, Repr

/-- The database slice read and written by `stockManagementService`. -/
structure StockDB where
  products : List PRow
  variants : List VRow
deriving DecidableEq, Repr

/-- `prisma.productVariant.findUnique({ where: { id } })`. -/
def getVariant (db : StockDB) (vid : Nat) : Option VRow :=
  db.variants.find? (fun v => v.id == vid)

/-- `prisma.product.findUnique({ where: { id } })`. -/
def getProduct (db : StockDB) (pid : Nat) : Option PRow :=
  db.products.find? (fun p => p.id == pid)

/-- `prisma.productVariant.update` changing the `stock` of the row `vid`. -/
def updVariantStock (vs : List VRow) (vid : Nat) (f : Int → Int) : List VRow :=
  vs.map (fun v => if v.id = vid then { v with stock := f v.stock } else v)

/-- `prisma.product.update` changing the `quantity` of the row `pid`. -/
def updProductQty (ps : List PRow) (pid : Nat) (f : Int → Int) : List PRow :=
  ps.map (fun p => if p.id = pid then { p with quantity := f p.quantity } else p)

/-- `deductVariantStock(variantId, quantity)`: throws when the variant is
missing or `variant.stock < quantity`, else decrements. -/
def deductVariantStock (db : StockDB) (variantId : Nat) (quantity : Int) :
    Except String StockDB :=
  match getVariant db variantId with
  | none => .error "Variant not found"
  | some variant =>
    if variant.stock < quantity then .error "Insufficient stock for variant"
    else .ok { db with
      variants := updVariantStock db.variants variantId (fun s => s - quantity) }

/-- `restoreVariantStock(variantId, quantity)`: throws when the variant is
missing, else increments (no upper check). -/
def restoreVariantStock (db : StockDB) (variantId : Nat) (quantity : Int) :
    Except String StockDB :=
  match getVariant db variantId with
  | none => .error "Variant not found"
  | some _ => .ok { db with
      variants := updVariantStock db.variants variantId (fun s => s + quantity) }

/-- `deductProductStock(productId, quantity)`. -/
def deductProductStock (db : StockDB) (productId : Nat) (quantity : Int) :
    Except String StockDB :=
  match getProduct db productId with
  | none => .error "Product not found"
  | some product =>
    if product.quantity < quantity then .error "Insufficient stock for product"
    else .ok { db with
      products := updProductQty db.products productId (fun s => s - quantity) }

/-- `restoreProductStock(productId, quantity)`: the prisma update itself
throws when the product row is absent, else increments. -/
def restoreProductStock (db : StockDB) (productId : Nat) (quantity : Int) :
    Except String StockDB :=
  match getProduct db productId with
  | none => .error "Product not found"
  | some _ => .ok { db with
      products := updProductQty db.products productId (fun s => s + quantity) }

/-- Exact-match test of `resolveVariantId`: `voSet.size === desired.size`
and every desired id is in `voSet` (JS sets dedup, hence `dedup.length`). -/
def isExactMatch (optionIds : List Nat) (v : VRow) : Bool :=
  v.options.dedup.length == optionIds.dedup.length &&
    optionIds.all (fun i => decide (i ∈ v.options))

/-- Subset test of the fallback loop: every variant option id is desired. -/
def isSubsetMatch (optionIds : List Nat) (v : VRow) : Bool :=
  v.options.all (fun i => decide (i ∈ optionIds))

/-- One iteration of the fallback loop (`best` / `bestSize` accumulator):
keep the variant when it is a subset match strictly larger than the best. -/
def subsetStep (optionIds : List Nat) (acc : Option Nat × Int) (v : VRow) :
    Option Nat × Int :=
  if isSubsetMatch optionIds v ∧ acc.2 < (v.options.dedup.length : Int)
  then (some v.id, (v.options.dedup.length : Int)) else acc

/-- The whole fallback loop, starting from `best = null`, `bestSize = -1`. -/
def subsetBest (optionIds : List Nat) (variants : List VRow) : Option Nat × Int :=
  variants.foldl (subsetStep optionIds) (none, -1)

/-- `resolveVariantId(productId, optionIds)` applied to the product's
variant rows: null on empty inputs, else first exact match, else the
largest-subset fallback. -/
def resolveVariantId (variants : List VRow) (optionIds : List Nat) : Option Nat :=
  if optionIds.isEmpty then none
  else if variants.isEmpty then none
  else
    match variants.find? (fun v => isExactMatch optionIds v) with
    | some v => some v.id
    | none => (subsetBest optionIds variants).1

lemma isExactMatch_iff (S : List Nat) (v : VRow) :
    isExactMatch S v = true ↔ v.options.toFinset = S.toFinset := by
  unfold isExactMatch
  rw [Bool.and_eq_true, beq_iff_eq, List.all_eq_true]
  constructor
  · rintro ⟨hlen, hall⟩
    have hsub : S.toFinset ⊆ v.options.toFinset := by
      intro x hx
      rw [List.mem_toFinset] at hx ⊢
      exact of_decide_eq_true (hall x hx)
    have hcard : v.options.toFinset.card ≤ S.toFinset.card := by
      rw [List.card_toFinset, List.card_toFinset]
      exact le_of_eq hlen
    exact (Finset.eq_of_subset_of_card_le hsub hcard).symm
  · intro h
    constructor
    · rw [← List.card_toFinset, ← List.card_toFinset, h]
    · intro x hx
      apply decide_eq_true
      rw [← List.mem_toFinset, h, List.mem_toFinset]
      exact hx

lemma isSubsetMatch_iff (S : List Nat) (v : VRow) :
    isSubsetMatch S v = true ↔ v.options.toFinset ⊆ S.toFinset := by
  unfold isSubsetMatch
  rw [List.all_eq_true]
  constructor
  · intro hall x hx
    rw [List.mem_toFinset] at hx ⊢
    exact of_decide_eq_true (hall x hx)
  · intro hsub x hx
    apply decide_eq_true
    rw [← List.mem_toFinset]
    exact hsub (by rw [List.mem_toFinset]; exact hx)

lemma subsetBest_mono (S : List Nat) :
    ∀ (l : List VRow) (acc : Option Nat × Int),
      acc.2 ≤ (l.foldl (subsetStep S) acc).2 := by
  intro l
  induction l with
  | nil => intro acc; exact le_refl _
  | cons h t ih =>
    intro acc
    refine le_trans ?_ (ih (subsetStep S acc h))
    unfold subsetStep
    split
    · next hc => exact le_of_lt hc.2
    · exact le_refl _

lemma subsetBest_dominates (S : List Nat) :
    ∀ (l : List VRow) (acc : Option Nat × Int) (v : VRow), v ∈ l →
      isSubsetMatch S v = true →
      (v.options.dedup.length : Int) ≤ (l.foldl (subsetStep S) acc).2 := by
  intro l
  induction l with
  | nil => intro acc v hv; exact absurd hv (List.not_mem_nil v)
  | cons h t ih =>
    intro acc v hv hsub
    rcases List.mem_cons.1 hv with heq | ht
    · subst heq
      refine le_trans ?_ (subsetBest_mono S t (subsetStep S acc v))
      unfold subsetStep
      split
      · exact le_refl _
      · next hc =>
        push_neg at hc
        exact hc hsub
    · exact ih (subsetStep S acc h) v ht hsub

lemma subsetBest_achieved (S : List Nat) :
    ∀ (l : List VRow) (acc : Option Nat × Int),
      l.foldl (subsetStep S) acc = acc ∨
      ∃ v ∈ l, isSubsetMatch S v = true ∧
        l.foldl (subsetStep S) acc = (some v.id, (v.options.dedup.length : Int)) := by
  intro l
  induction l with
  | nil => intro acc; exact Or.inl rfl
  | cons h t ih =>
    intro acc
    simp only [List.foldl_cons]
    by_cases hc : isSubsetMatch S h = true ∧ acc.2 < (h.options.dedup.length : Int)
    · have hstep : subsetStep S acc h = (some h.id, (h.options.dedup.length : Int)) := by
        unfold subsetStep
        rw [if_pos hc]
      rw [hstep]
      rcases ih (some h.id, (h.options.dedup.length : Int)) with heq | ⟨v, hv, hs, hres⟩
      · exact Or.inr ⟨h, List.mem_cons_self h t, hc.1, heq⟩
      · exact Or.inr ⟨v, List.mem_cons_of_mem h hv, hs, hres⟩
    · have hstep : subsetStep S acc h = acc := by
        unfold subsetStep
        rw [if_neg hc]
      rw [hstep]
      rcases ih acc with heq | ⟨v, hv, hs, hres⟩
      · exact Or.inl heq
      · exact Or.inr ⟨v, List.mem_cons_of_mem h hv, hs, hres⟩

/-- C1: `resolveVariantId` returns a variant whose option-id set is
set-equal to the non-empty selection whenever one exists; otherwise it
returns a subset variant with the greatest number of options (so a strict
subset variant is never preferred over an exact match). -/
theorem resolveVariantId_exact_then_largest_subset
    (variants : List VRow) (S : List Nat) (hS : S ≠ []) :
    ((∃ v ∈ variants, v.options.toFinset = S.toFinset) →
      ∃ v ∈ variants, v.options.toFinset = S.toFinset ∧
        resolveVariantId variants S = some v.id) ∧
    ((¬ ∃ v ∈ variants, v.options.toFinset = S.toFinset) →
      (∃ v ∈ variants, v.options.toFinset ⊆ S.toFinset) →
      ∃ v ∈ variants, v.options.toFinset ⊆ S.toFinset ∧
        resolveVariantId variants S = some v.id ∧
        ∀ w ∈ variants, w.options.toFinset ⊆ S.toFinset →
          w.options.toFinset.card ≤ v.options.toFinset.card) := by
  have hSne : S.isEmpty = false := by
    cases S with
    | nil => exact absurd rfl hS
    | cons a t => rfl
  constructor
  · rintro ⟨v, hv, hset⟩
    have hvne : variants.isEmpty = false := by
      cases variants with
      | nil => exact absurd hv (List.not_mem_nil v)
      | cons a t => rfl
    have hfind : ∃ w, variants.find? (fun w => isExactMatch S w) = some w := by
      rw [← Option.isSome_iff_exists, List.find?_isSome]
      exact ⟨v, hv, (isExactMatch_iff S v).2 hset⟩
    obtain ⟨w, hw⟩ := hfind
    refine ⟨w, List.mem_of_find?_eq_some hw,
      (isExactMatch_iff S w).1 (List.find?_some hw), ?_⟩
    unfold resolveVariantId
    rw [hSne, hvne, hw]
    rfl
  · rintro hnoexact ⟨v, hv, hsub⟩
    have hvne : variants.isEmpty = false := by
      cases variants with
      | nil => exact absurd hv (List.not_mem_nil v)
      | cons a t => rfl
    have hfind : variants.find? (fun w => isExactMatch S w) = none := by
      rw [List.find?_eq_none]
      intro w hw hmatch
      exact hnoexact ⟨w, hw, (isExactMatch_iff S w).1 hmatch⟩
    have hres : resolveVariantId variants S = (subsetBest S variants).1 := by
      unfold resolveVariantId
      rw [hSne, hvne, hfind]
      rfl
    have hvsub : isSubsetMatch S v = true := (isSubsetMatch_iff S v).2 hsub
    rcases subsetBest_achieved S variants (none, -1) with heq | ⟨w, hwmem, hwsub, hwres⟩
    · exfalso
      have heq2 : subsetBest S variants = (none, -1) := heq
      have hdom : (v.options.dedup.length : Int) ≤ (subsetBest S variants).2 :=
        subsetBest_dominates S variants (none, -1) v hv hvsub
      rw [heq2] at hdom
      simp only [] at hdom
      omega
    · have hwres2 : subsetBest S variants = (some w.id, (w.options.dedup.length : Int)) := hwres
      refine ⟨w, hwmem, (isSubsetMatch_iff S w).1 hwsub, ?_, ?_⟩
      · rw [hres, hwres2]
      · intro u hu husub
        have hdom : (u.options.dedup.length : Int) ≤ (subsetBest S variants).2 :=
          subsetBest_dominates S variants (none, -1) u hu ((isSubsetMatch_iff S u).2 husub)
        rw [hwres2] at hdom
        have hdom2 : (u.options.dedup.length : Int) ≤ (w.options.dedup.length : Int) := hdom
        rw [List.card_toFinset, List.card_toFinset]
        exact_mod_cast hdom2

/-- Witness for C1 at the spec's own example: V1 has options A,B and V2 has
only A; resolving the selection A,B returns V1. -/
theorem resolveVariantId_exact_then_largest_subset_witness :
    ∃ v ∈ [VRow.mk 1 1 5 [10, 20], VRow.mk 2 1 7 [10]],
      v.options.toFinset = ([10, 20] : List Nat).toFinset ∧
      resolveVariantId [VRow.mk 1 1 5 [10, 20], VRow.mk 2 1 7 [10]] [10, 20] = some v.id :=
  (resolveVariantId_exact_then_largest_subset
      [VRow.mk 1 1 5 [10, 20], VRow.mk 2 1 7 [10]] [10, 20] (by decide)).1
    ⟨VRow.mk 1 1 5 [10, 20], by decide, by decide⟩

lemma find?_updVariantStock_self (vs : List VRow) (vid : Nat) (f : Int → Int) :
    (updVariantStock vs vid f).find? (fun v => v.id == vid) =
      ((vs.find? (fun v => v.id == vid)).map
        (fun v => { v with stock := f v.stock })) := by
  induction vs with
  | nil => rfl
  | cons h t ih =>
    unfold updVariantStock at ih ⊢
    by_cases hid : h.id = vid
    · simp [List.find?_cons, hid]
    · simp only [List.map_cons, if_neg hid]
      rw [List.find?_cons_of_neg, List.find?_cons_of_neg]
      · exact ih
      · simp [hid]
      · simp [hid]

lemma find?_updProductQty_self (ps : List PRow) (pid : Nat) (f : Int → Int) :
    (updProductQty ps pid f).find? (fun p => p.id == pid) =
      ((ps.find? (fun p => p.id == pid)).map
        (fun p => { p with quantity := f p.quantity })) := by
  induction ps with
  | nil => rfl
  | cons h t ih =>
    unfold updProductQty at ih ⊢
    by_cases hid : h.id = pid
    · simp [List.find?_cons, hid]
    · simp only [List.map_cons, if_neg hid]
      rw [List.find?_cons_of_neg, List.find?_cons_of_neg]
      · exact ih
      · simp [hid]
      · simp [hid]

/-- C5: deducting quantity `q` from an existing stock bucket (a variant's
`stock` or a product's `quantity`) errors exactly when the available stock
is below `q` (leaving the database untouched, since the throw precedes the
update), and otherwise decrements the bucket by exactly `q`; starting from
a non-negative bucket the result is never negative. -/
theorem stock_deduction_never_negative
    (db : StockDB) (q : Int) (vid pid : Nat) (v : VRow) (p : PRow)
    (hv : getVariant db vid = some v) (hp : getProduct db pid = some p)
    (hv0 : 0 ≤ v.stock) (hp0 : 0 ≤ p.quantity) :
    ((∃ e, deductVariantStock db vid q = .error e) ↔ v.stock < q) ∧
    (q ≤ v.stock →
      ∃ db2, deductVariantStock db vid q = .ok db2 ∧
        getVariant db2 vid = some { v with stock := v.stock - q } ∧
        0 ≤ v.stock - q ∧ db2.products = db.products) ∧
    ((∃ e, deductProductStock db pid q = .error e) ↔ p.quantity < q) ∧
    (q ≤ p.quantity →
      ∃ db2, deductProductStock db pid q = .ok db2 ∧
        getProduct db2 pid = some { p with quantity := p.quantity - q } ∧
        0 ≤ p.quantity - q ∧ db2.variants = db.variants) := by
  refine ⟨?_, ?_, ?_, ?_⟩
  · constructor
    · rintro ⟨e, he⟩
      by_contra hlt
      simp only [deductVariantStock, hv, if_neg hlt] at he
      exact Except.noConfusion he
    · intro hlt
      refine ⟨"Insufficient stock for variant", ?_⟩
      simp only [deductVariantStock, hv, if_pos hlt]
  · intro hle
    have hnlt : ¬ v.stock < q := not_lt.2 hle
    refine ⟨{ db with variants := updVariantStock db.variants vid (fun s => s - q) },
      ?_, ?_, by omega, rfl⟩
    · simp only [deductVariantStock, hv, if_neg hnlt]
    · show (updVariantStock db.variants vid (fun s => s - q)).find?
        (fun w => w.id == vid) = _
      rw [find?_updVariantStock_self]
      unfold getVariant at hv
      rw [hv]
      rfl
  · constructor
    · rintro ⟨e, he⟩
      by_contra hlt
      simp only [deductProductStock, hp, if_neg hlt] at he
      exact Except.noConfusion he
    · intro hlt
      refine ⟨"Insufficient stock for product", ?_⟩
      simp only [deductProductStock, hp, if_pos hlt]
  · intro hle
    have hnlt : ¬ p.quantity < q := not_lt.2 hle
    refine ⟨{ db with products := updProductQty db.products pid (fun s => s - q) },
      ?_, ?_, by omega, rfl⟩
    · simp only [deductProductStock, hp, if_neg hnlt]
    · show (updProductQty db.products pid (fun s => s - q)).find?
        (fun w => w.id == pid) = _
      rw [find?_updProductQty_self]
      unfold getProduct at hp
      rw [hp]
      rfl

/-- Witness for C5: a variant with stock 5 and a product with quantity 4,
deducting 3 of each. -/
theorem stock_deduction_never_negative_witness :
    (getVariant ⟨[PRow.mk 7 4], [VRow.mk 3 7 5 [10]]⟩ 3 = some (VRow.mk 3 7 5 [10])) ∧
    ((∃ e, deductVariantStock ⟨[PRow.mk 7 4], [VRow.mk 3 7 5 [10]]⟩ 3 3 = .error e) ↔
      (5 : Int) < 3) := by
  have h := stock_deduction_never_negative ⟨[PRow.mk 7 4], [VRow.mk 3 7 5 [10]]⟩ 3 3 7
    (VRow.mk 3 7 5 [10]) (PRow.mk 7 4) (by decide) (by decide) (by decide) (by decide)
  exact ⟨by decide, h.1⟩

/-- The `optionDetails` JSON blob of an order item, normalized: the stored
`variantId` (if any) and the raw selection payload, each selection group
reduced to its list of selected option ids
(`selections[i].selectedOptions[j].id`). -/
structure OptionDetails where
  variantId : Option Nat
  selections : List (List Nat)
deriving DecidableEq, Repr

/-- An `OrderItem` row as read by the stock engine. -/
structure Item where
  productId : Nat
  quantity : Int
  optionDetails : Option OptionDetails
deriving DecidableEq, Repr

/-- `prisma.productVariant.findMany({ where: { productId } })`. -/
def productVariants (db : StockDB) (pid : Nat) : List VRow :=
  db.variants.filter (fun v => v.productId == pid)

/-- Variant resolution of deduct/restoreStockForItem: use the stored
`optionDetails.variantId` when present, else run `resolveVariantId` on the
flattened selected ids when the selections list is non-empty. -/
def resolveItemVariantId (db : StockDB) (item : Item) : Option Nat :=
  match item.optionDetails with
  | none => none
  | some od =>
    match od.variantId with
    | some vid => some vid
    | none =>
      if od.selections.isEmpty then none
      else resolveVariantId (productVariants db item.productId) od.selections.flatten

/-- `deductStockForItem(orderItem)`: variant bucket when a variant id
resolves, flat product bucket otherwise. -/
def deductStockForItem (db : StockDB) (item : Item) : Except String StockDB :=
  match resolveItemVariantId db item with
  | some vid => deductVariantStock db vid item.quantity
  | none => deductProductStock db item.productId item.quantity

/-- `restoreStockForItem(orderItem)`. -/
def restoreStockForItem (db : StockDB) (item : Item) : Except String StockDB :=
  match resolveItemVariantId db item with
  | some vid => restoreVariantStock db vid item.quantity
  | none => restoreProductStock db item.productId item.quantity

/-- The `for (const item of order.orderItems)` loop of
`deductStockForOrder`: each per-item update commits immediately (there is
no wrapping transaction); the first failure stops the loop and is
rethrown, keeping every earlier item's committed update. -/
def deductItemsLoop : StockDB → List Item → StockDB × Option String
  | db, [] => (db, none)
  | db, item :: rest =>
    match deductStockForItem db item with
    | .ok db2 => deductItemsLoop db2 rest
    | .error e => (db, some e)

/-- The item loop of `restoreStockForOrder`. -/
def restoreItemsLoop : StockDB → List Item → StockDB × Option String
  | db, [] => (db, none)
  | db, item :: rest =>
    match restoreStockForItem db item with
    | .ok db2 => restoreItemsLoop db2 rest
    | .error e => (db, some e)

/-- `Order.state` values. -/
inductive OState where
  | PLACED
  | DELIVERING
  | RETURNED
  | COMPLETED
deriving DecidableEq, Repr

/-- An `Order` row with its items (fields used by the handlers). -/
structure Order where
  state : OState
  driverId : Option Nat
  items : List Item
deriving DecidableEq, Repr

/-- The order table plus the stock slice, as seen by the route handlers. -/
structure AppDB where
  orders : Nat → Option Order
  stock : StockDB

/-- HTTP outcomes of the handlers (200/404/400/500). -/
inductive HStatus where
  | ok
  | notFound
  | badRequest
  | serverError
deriving DecidableEq, Repr

/-- `prisma.order.update` on the row `oid`. -/
def setOrder (db : AppDB) (oid : Nat) (o : Order) : AppDB :=
  { db with orders := fun i => if i = oid then some o else db.orders i }

/-- `deductStockForOrder(orderId)`: fetch the order, then run the item
loop; the partially-updated stock is kept on failure. -/
def deductStockForOrder (db : AppDB) (oid : Nat) : AppDB × Option String :=
  match db.orders oid with
  | none => (db, some "Order not found")
  | some o =>
    let r := deductItemsLoop db.stock o.items
    ({ db with stock := r.1 }, r.2)

/-- `restoreStockForOrder(orderId)`. -/
def restoreStockForOrder (db : AppDB) (oid : Nat) : AppDB × Option String :=
  match db.orders oid with
  | none => (db, some "Order not found")
  | some o =>
    let r := restoreItemsLoop db.stock o.items
    ({ db with stock := r.1 }, r.2)

/-- PUT /api/orders/:id/state — write the new state, then apply stock
changes keyed strictly on the edge: deduct when entering DELIVERING from a
different state, restore when entering RETURNED from a different state,
otherwise nothing.  A thrown stock error is caught into a 500 response,
with every already-committed write kept. -/
def updateOrderStateHandler (db : AppDB) (oid : Nat) (newState : OState) :
    AppDB × HStatus :=
  match db.orders oid with
  | none => (db, .notFound)
  | some existing =>
    let db1 := setOrder db oid { existing with state := newState }
    if newState = .DELIVERING ∧ existing.state ≠ .DELIVERING then
      let r := deductStockForOrder db1 oid
      (r.1, if r.2.isSome then .serverError else .ok)
    else if newState = .RETURNED ∧ existing.state ≠ .RETURNED then
      let r := restoreStockForOrder db1 oid
      (r.1, if r.2.isSome then .serverError else .ok)
    else (db1, .ok)

/-- One line of `validateStockForOrder`: available stock of the resolved
bucket (0 when the row is missing) covers the requested quantity. -/
def itemStockValid (db : StockDB) (item : Item) : Bool :=
  match resolveItemVariantId db item with
  | some vid =>
    decide (item.quantity ≤ ((getVariant db vid).map (fun v => v.stock)).getD 0)
  | none =>
    decide (item.quantity ≤ ((getProduct db item.productId).map (fun p => p.quantity)).getD 0)

/-- `validateStockForOrder(orderId).isValid` for an already-fetched order. -/
def validateStockForOrder (o : Order) (db : StockDB) : Bool :=
  o.items.all (itemStockValid db)

/-- PUT /api/orders/:id/driver — the driver-assignment handler: the new
state is DELIVERING when a driver id is supplied and PLACED otherwise;
stock is pre-validated only on the edge into DELIVERING (400 and no write
when invalid); then the order row is written and the same edge-keyed stock
logic as the state handler runs.  (The driver-existence check concerns an
external table and is elided.) -/
def assignDriverHandler (db : AppDB) (oid : Nat) (driverId : Option Nat) :
    AppDB × HStatus :=
  match db.orders oid with
  | none => (db, .notFound)
  | some existing =>
    let newState := if driverId.isSome then OState.DELIVERING else OState.PLACED
    if (newState = OState.DELIVERING ∧ existing.state ≠ OState.DELIVERING) ∧
        validateStockForOrder existing db.stock = false then
      (db, .badRequest)
    else
      let db1 := setOrder db oid { existing with state := newState, driverId := driverId }
      if newState = .DELIVERING ∧ existing.state ≠ .DELIVERING then
        let r := deductStockForOrder db1 oid
        (r.1, if r.2.isSome then .serverError else .ok)
      else if newState = .RETURNED ∧ existing.state ≠ .RETURNED then
        let r := restoreStockForOrder db1 oid
        (r.1, if r.2.isSome then .serverError else .ok)
      else (db1, .ok)

/-- DELETE /api/orders/:id — restore stock first when (and only when) the
order is currently DELIVERING, then delete the order row (the deletion
transaction is skipped when the restore throws, which becomes a 500). -/
def deleteOrderHandler (db : AppDB) (oid : Nat) : AppDB × HStatus :=
  match db.orders oid with
  | none => (db, .notFound)
  | some existing =>
    if existing.state = .DELIVERING then
      let r := restoreStockForOrder db oid
      match r.2 with
      | some _ => (r.1, .serverError)
      | none =>
        ({ r.1 with orders := fun i => if i = oid then none else r.1.orders i }, .ok)
    else
      ({ db with orders := fun i => if i = oid then none else db.orders i }, .ok)

lemma setOrder_orders_self (db : AppDB) (oid : Nat) (o : Order) :
    (setOrder db oid o).orders oid = some o := by
  simp [setOrder]

lemma deductStockForOrder_eq (db : AppDB) (oid : Nat) (o : Order)
    (h : db.orders oid = some o) :
    deductStockForOrder db oid =
      ({ db with stock := (deductItemsLoop db.stock o.items).1 },
        (deductItemsLoop db.stock o.items).2) := by
  unfold deductStockForOrder
  rw [h]

lemma restoreStockForOrder_eq (db : AppDB) (oid : Nat) (o : Order)
    (h : db.orders oid = some o) :
    restoreStockForOrder db oid =
      ({ db with stock := (restoreItemsLoop db.stock o.items).1 },
        (restoreItemsLoop db.stock o.items).2) := by
  unfold restoreStockForOrder
  rw [h]

lemma updateOrderStateHandler_eq (db : AppDB) (oid : Nat) (o : Order)
    (newState : OState) (h : db.orders oid = some o) :
    updateOrderStateHandler db oid newState =
      if newState = .DELIVERING ∧ o.state ≠ .DELIVERING then
        ({ setOrder db oid { o with state := newState } with
            stock := (deductItemsLoop db.stock o.items).1 },
          if (deductItemsLoop db.stock o.items).2.isSome then .serverError else .ok)
      else if newState = .RETURNED ∧ o.state ≠ .RETURNED then
        ({ setOrder db oid { o with state := newState } with
            stock := (restoreItemsLoop db.stock o.items).1 },
          if (restoreItemsLoop db.stock o.items).2.isSome then .serverError else .ok)
      else (setOrder db oid { o with state := newState }, .ok) := by
  simp only [updateOrderStateHandler, h]
  rw [deductStockForOrder_eq (setOrder db oid { o with state := newState }) oid
      { o with state := newState } (setOrder_orders_self db oid _),
    restoreStockForOrder_eq (setOrder db oid { o with state := newState }) oid
      { o with state := newState } (setOrder_orders_self db oid _)]
  by_cases h1 : newState = .DELIVERING ∧ o.state ≠ .DELIVERING
  · rw [if_pos h1, if_pos h1]
    rfl
  · rw [if_neg h1, if_neg h1]
    by_cases h2 : newState = .RETURNED ∧ o.state ≠ .RETURNED
    · rw [if_pos h2, if_pos h2]
      rfl
    · rw [if_neg h2, if_neg h2]

lemma updateOrderStateHandler_orders (db : AppDB) (oid : Nat) (o : Order)
    (newState : OState) (h : db.orders oid = some o) :
    (updateOrderStateHandler db oid newState).1.orders oid =
      some { o with state := newState } := by
  rw [updateOrderStateHandler_eq db oid o newState h]
  by_cases h1 : newState = .DELIVERING ∧ o.state ≠ .DELIVERING
  · rw [if_pos h1]
    simp [setOrder]
  · rw [if_neg h1]
    by_cases h2 : newState = .RETURNED ∧ o.state ≠ .RETURNED
    · rw [if_pos h2]
      simp [setOrder]
    · rw [if_neg h2]
      exact setOrder_orders_self db oid _

/-- C2: stock effects of a state write are keyed strictly on the edge:
entering DELIVERING from a different state deducts for every item,
entering RETURNED from a different state restores for every item, every
other write (same state re-issued, PLACED, COMPLETED) leaves stock
unchanged, and issuing DELIVERING twice in a row deducts only once; the
driver-assignment handler keys its stock effects on the same edges. -/
theorem state_write_stock_edges
    (db : AppDB) (oid : Nat) (o : Order) (newState : OState)
    (h : db.orders oid = some o) :
    ((newState = .DELIVERING ∧ o.state ≠ .DELIVERING) →
      (updateOrderStateHandler db oid newState).1.stock =
        (deductItemsLoop db.stock o.items).1) ∧
    ((newState = .RETURNED ∧ o.state ≠ .RETURNED) →
      (updateOrderStateHandler db oid newState).1.stock =
        (restoreItemsLoop db.stock o.items).1) ∧
    (¬ (newState = .DELIVERING ∧ o.state ≠ .DELIVERING) →
      ¬ (newState = .RETURNED ∧ o.state ≠ .RETURNED) →
      (updateOrderStateHandler db oid newState).1.stock = db.stock) ∧
    ((updateOrderStateHandler
        (updateOrderStateHandler db oid .DELIVERING).1 oid .DELIVERING).1.stock =
      (updateOrderStateHandler db oid .DELIVERING).1.stock) ∧
    (∀ driverId : Option Nat,
      (driverId.isSome = true → o.state ≠ .DELIVERING →
        validateStockForOrder o db.stock = true →
        (assignDriverHandler db oid driverId).1.stock =
          (deductItemsLoop db.stock o.items).1) ∧
      (driverId.isSome = true → o.state ≠ .DELIVERING →
        validateStockForOrder o db.stock = false →
        (assignDriverHandler db oid driverId).1 = db) ∧
      ((driverId = none ∨ o.state = .DELIVERING) →
        (assignDriverHandler db oid driverId).1.stock = db.stock)) := by
  refine ⟨?_, ?_, ?_, ?_, ?_⟩
  · rintro ⟨h1, h2⟩
    rw [updateOrderStateHandler_eq db oid o newState h, if_pos ⟨h1, h2⟩]
  · rintro ⟨h1, h2⟩
    have hno : ¬ (newState = .DELIVERING ∧ o.state ≠ .DELIVERING) := by
      rintro ⟨hc, -⟩
      rw [h1] at hc
      exact OState.noConfusion hc
    rw [updateOrderStateHandler_eq db oid o newState h, if_neg hno, if_pos ⟨h1, h2⟩]
  · intro h1 h2
    rw [updateOrderStateHandler_eq db oid o newState h, if_neg h1, if_neg h2]
    rfl
  · by_cases hstate : o.state = .DELIVERING
    · have h1 : ¬ (OState.DELIVERING = OState.DELIVERING ∧ o.state ≠ .DELIVERING) := by
        rintro ⟨-, hc⟩
        exact hc hstate
      have h2 : ¬ (OState.DELIVERING = OState.RETURNED ∧ o.state ≠ .RETURNED) := by
        rintro ⟨hc, -⟩
        exact OState.noConfusion hc
      have hres1 : updateOrderStateHandler db oid .DELIVERING =
          (setOrder db oid { o with state := .DELIVERING }, .ok) := by
        rw [updateOrderStateHandler_eq db oid o .DELIVERING h, if_neg h1, if_neg h2]
      rw [hres1]
      rw [updateOrderStateHandler_eq (setOrder db oid { o with state := .DELIVERING }, HStatus.ok).1
        oid { o with state := .DELIVERING } .DELIVERING (setOrder_orders_self db oid _)]
      have h1b : ¬ (OState.DELIVERING = OState.DELIVERING ∧
          ({ o with state := OState.DELIVERING } : Order).state ≠ .DELIVERING) := by
        rintro ⟨-, hc⟩
        exact hc rfl
      have h2b : ¬ (OState.DELIVERING = OState.RETURNED ∧
          ({ o with state := OState.DELIVERING } : Order).state ≠ .RETURNED) := by
        rintro ⟨hc, -⟩
        exact OState.noConfusion hc
      rw [if_neg h1b, if_neg h2b]
      rfl
    · have horders := updateOrderStateHandler_orders db oid o .DELIVERING h
      have h1b : ¬ (OState.DELIVERING = OState.DELIVERING ∧
          ({ o with state := OState.DELIVERING } : Order).state ≠ .DELIVERING) := by
        rintro ⟨-, hc⟩
        exact hc rfl
      have h2b : ¬ (OState.DELIVERING = OState.RETURNED ∧
          ({ o with state := OState.DELIVERING } : Order).state ≠ .RETURNED) := by
        rintro ⟨hc, -⟩
        exact OState.noConfusion hc
      rw [updateOrderStateHandler_eq (updateOrderStateHandler db oid .DELIVERING).1
        oid { o with state := .DELIVERING } .DELIVERING horders, if_neg h1b, if_neg h2b]
      rfl
  · intro driverId
    refine ⟨?_, ?_, ?_⟩
    · intro hsome h2 hval
      rcases driverId with _ | d
      · exact absurd hsome (by simp)
      · simp [assignDriverHandler, h, h2, hval, setOrder, deductStockForOrder]
    · intro hsome h2 hval
      rcases driverId with _ | d
      · exact absurd hsome (by simp)
      · simp [assignDriverHandler, h, h2, hval]
    · rintro (hnone | hstate)
      · subst hnone
        simp [assignDriverHandler, h, setOrder]
      · rcases driverId with _ | d
        · simp [assignDriverHandler, h, setOrder]
        · simp [assignDriverHandler, h, hstate, setOrder]

/-- Witness for C2: a PLACED order with one flat item moving to DELIVERING
deducts the item's quantity from the product bucket. -/
theorem state_write_stock_edges_witness :
    (updateOrderStateHandler
      ⟨fun i => if i = 1 then some ⟨.PLACED, none, [⟨5, 2, none⟩]⟩ else none,
        ⟨[PRow.mk 5 10], []⟩⟩ 1 .DELIVERING).1.stock =
      (deductItemsLoop ⟨[PRow.mk 5 10], []⟩ [⟨5, 2, none⟩]).1 := by
  have h := (state_write_stock_edges
    ⟨fun i => if i = 1 then some ⟨.PLACED, none, [⟨5, 2, none⟩]⟩ else none,
      ⟨[PRow.mk 5 10], []⟩⟩ 1 ⟨.PLACED, none, [⟨5, 2, none⟩]⟩ .DELIVERING rfl).1
  exact h ⟨rfl, by decide⟩

/-- C10: deleting an order restores stock for its items (through the item
loop, so each item goes to its resolved variant bucket or to the flat
product bucket) exactly when the order is DELIVERING at deletion time;
deleting a PLACED, RETURNED or COMPLETED order leaves all stock unchanged
and removes the order row. -/
theorem delete_order_restores_iff_delivering
    (db : AppDB) (oid : Nat) (o : Order) (h : db.orders oid = some o) :
    (o.state = .DELIVERING →
      (deleteOrderHandler db oid).1.stock = (restoreItemsLoop db.stock o.items).1) ∧
    (o.state ≠ .DELIVERING →
      (deleteOrderHandler db oid).1.stock = db.stock ∧
      (deleteOrderHandler db oid).1.orders oid = none ∧
      (deleteOrderHandler db oid).2 = .ok) := by
  constructor
  · intro hstate
    simp only [deleteOrderHandler, h]
    rw [if_pos hstate,
      restoreStockForOrder_eq db oid o h]
    rcases (restoreItemsLoop db.stock o.items).2 with _ | e
    · rfl
    · rfl
  · intro hstate
    simp only [deleteOrderHandler, h]
    rw [if_neg hstate]
    refine ⟨rfl, ?_, rfl⟩
    simp

/-- Witness for C10: deleting a COMPLETED order leaves stock unchanged. -/
theorem delete_order_restores_iff_delivering_witness :
    (deleteOrderHandler
      ⟨fun i => if i = 1 then some ⟨.COMPLETED, none, [⟨5, 2, none⟩]⟩ else none,
        ⟨[PRow.mk 5 10], []⟩⟩ 1).1.stock = ⟨[PRow.mk 5 10], []⟩ ∧
    (deleteOrderHandler
      ⟨fun i => if i = 1 then some ⟨.COMPLETED, none, [⟨5, 2, none⟩]⟩ else none,
        ⟨[PRow.mk 5 10], []⟩⟩ 1).1.orders 1 = none := by
  have hd := (delete_order_restores_iff_delivering
    ⟨fun i => if i = 1 then some ⟨.COMPLETED, none, [⟨5, 2, none⟩]⟩ else none,
      ⟨[PRow.mk 5 10], []⟩⟩ 1 ⟨.COMPLETED, none, [⟨5, 2, none⟩]⟩ rfl).2 (by decide)
  exact ⟨hd.1, hd.2.1⟩

/-- The concrete database of the C3 counterexample: order 1 is PLACED with
two flat items; product 1 has enough stock for item 1 but product 2 does
not cover item 2. -/
def nonAtomicDB : AppDB :=
  ⟨fun i => if i = 1 then some ⟨.PLACED, none, [⟨1, 1, none⟩, ⟨2, 5, none⟩]⟩ else none,
    ⟨[PRow.mk 1 10, PRow.mk 2 3], []⟩⟩

/-- C3 counterexample: transitioning order 1 of `nonAtomicDB` to DELIVERING
fails on the second item (insufficient stock), the handler answers 500 —
yet the order is now in state DELIVERING and product 1 has already lost
one unit while product 2 is untouched.  The order-row update and the
per-item stock mutations do not roll back together: a half-applied
transition is observable, contradicting the claimed atomicity. -/
theorem state_transition_not_atomic_counterexample :
    (updateOrderStateHandler nonAtomicDB 1 .DELIVERING).2 = .serverError ∧
    ((updateOrderStateHandler nonAtomicDB 1 .DELIVERING).1.orders 1).map
      (fun o => o.state) = some .DELIVERING ∧
    getProduct (updateOrderStateHandler nonAtomicDB 1 .DELIVERING).1.stock 1 =
      some (PRow.mk 1 9) ∧
    getProduct (updateOrderStateHandler nonAtomicDB 1 .DELIVERING).1.stock 2 =
      some (PRow.mk 2 3) := by
  refine ⟨by decide, by decide, by decide, by decide⟩

/-- C3 amended: on the edge into DELIVERING the handler first writes the
new order state, then runs the per-item stock loop with each item
committing separately; the state write and the stock changes of items
before the first failure persist even when a later item fails, and the
response is a server error exactly when some item failed. -/
theorem state_transition_sequential_commits
    (db : AppDB) (oid : Nat) (o : Order)
    (h : db.orders oid = some o) (hnd : o.state ≠ .DELIVERING) :
    (updateOrderStateHandler db oid .DELIVERING).1.orders oid =
      some { o with state := .DELIVERING } ∧
    (updateOrderStateHandler db oid .DELIVERING).1.stock =
      (deductItemsLoop db.stock o.items).1 ∧
    ((updateOrderStateHandler db oid .DELIVERING).2 = .serverError ↔
      (deductItemsLoop db.stock o.items).2.isSome = true) := by
  have hedge : OState.DELIVERING = OState.DELIVERING ∧ o.state ≠ .DELIVERING := ⟨rfl, hnd⟩
  refine ⟨updateOrderStateHandler_orders db oid o .DELIVERING h, ?_, ?_⟩
  · rw [updateOrderStateHandler_eq db oid o .DELIVERING h, if_pos hedge]
  · rw [updateOrderStateHandler_eq db oid o .DELIVERING h, if_pos hedge]
    show (if (deductItemsLoop db.stock o.items).2.isSome then HStatus.serverError
      else HStatus.ok) = .serverError ↔ _
    rcases hl : (deductItemsLoop db.stock o.items).2.isSome with _ | _
    · rw [if_neg (by simp)]
      simp
    · rw [if_pos rfl]
      simp

/-- Witness for C3's amended statement, at the counterexample database. -/
theorem state_transition_sequential_commits_witness :
    (updateOrderStateHandler nonAtomicDB 1 .DELIVERING).1.stock =
      (deductItemsLoop nonAtomicDB.stock [⟨1, 1, none⟩, ⟨2, 5, none⟩]).1 :=
  (state_transition_sequential_commits nonAtomicDB 1
    ⟨.PLACED, none, [⟨1, 1, none⟩, ⟨2, 5, none⟩]⟩ rfl (by decide)).2.1

lemma resolveVariantId_none_of_no_subset (variants : List VRow) (S : List Nat)
    (hns : ∀ v ∈ variants, ¬ v.options.toFinset ⊆ S.toFinset) :
    resolveVariantId variants S = none := by
  unfold resolveVariantId
  rcases hS : S.isEmpty with _ | _
  · rw [if_neg (by simp)]
    rcases hV : variants.isEmpty with _ | _
    · rw [if_neg (by simp)]
      have hfind : variants.find? (fun v => isExactMatch S v) = none := by
        rw [List.find?_eq_none]
        intro v hv hex
        exact hns v hv (by rw [(isExactMatch_iff S v).1 hex])
      rw [hfind]
      rcases subsetBest_achieved S variants (none, -1) with heq | ⟨v, hv, hsub, -⟩
      · have heq2 : subsetBest S variants = (none, -1) := heq
        rw [heq2]
      · exact absurd ((isSubsetMatch_iff S v).1 hsub) (hns v hv)
    · rw [if_pos rfl]
  · rw [if_pos rfl]

/-- C4: when no variant of the item's product has an option-id set that is
a subset of the selected ids (in particular when the product has no
variants at all) and no variant id is stored on the item, resolution
returns none and both stock directions fall back to the flat
`Product.quantity` bucket, changing it by the item's quantity and leaving
every variant row untouched. -/
theorem no_subset_variant_falls_back_to_product
    (db : StockDB) (item : Item) (od : OptionDetails)
    (h1 : item.optionDetails = some od) (h2 : od.variantId = none)
    (hns : ∀ v ∈ productVariants db item.productId,
      ¬ v.options.toFinset ⊆ od.selections.flatten.toFinset) :
    resolveItemVariantId db item = none ∧
    deductStockForItem db item = deductProductStock db item.productId item.quantity ∧
    restoreStockForItem db item = restoreProductStock db item.productId item.quantity ∧
    (∀ db2, deductStockForItem db item = .ok db2 →
      db2.variants = db.variants ∧
      ∀ p, getProduct db item.productId = some p →
        getProduct db2 item.productId = some { p with quantity := p.quantity - item.quantity }) ∧
    (∀ db2, restoreStockForItem db item = .ok db2 →
      db2.variants = db.variants ∧
      ∀ p, getProduct db item.productId = some p →
        getProduct db2 item.productId = some { p with quantity := p.quantity + item.quantity }) := by
  have hres : resolveItemVariantId db item = none := by
    simp only [resolveItemVariantId, h1, h2]
    rcases hsel : od.selections.isEmpty with _ | _
    · rw [if_neg (by simp)]
      exact resolveVariantId_none_of_no_subset _ _ hns
    · rw [if_pos rfl]
  have hded : deductStockForItem db item =
      deductProductStock db item.productId item.quantity := by
    simp only [deductStockForItem, hres]
  have hrest : restoreStockForItem db item =
      restoreProductStock db item.productId item.quantity := by
    simp only [restoreStockForItem, hres]
  refine ⟨hres, hded, hrest, ?_, ?_⟩
  · intro db2 hok
    rw [hded] at hok
    rcases hp : getProduct db item.productId with _ | p
    · simp only [deductProductStock, hp] at hok
      exact Except.noConfusion hok
    · simp only [deductProductStock, hp] at hok
      by_cases hlt : p.quantity < item.quantity
      · rw [if_pos hlt] at hok
        exact Except.noConfusion hok
      · rw [if_neg hlt] at hok
        have hdb2 : db2 = { db with
            products := updProductQty db.products item.productId
              (fun s => s - item.quantity) } := (Except.ok.inj hok).symm
        subst hdb2
        refine ⟨rfl, ?_⟩
        intro p2 hp2
        have hpp : p = p2 := Option.some.inj hp2
        subst hpp
        show (updProductQty db.products item.productId (fun s => s - item.quantity)).find?
          (fun w => w.id == item.productId) = _
        rw [find?_updProductQty_self]
        unfold getProduct at hp
        rw [hp]
        rfl
  · intro db2 hok
    rw [hrest] at hok
    rcases hp : getProduct db item.productId with _ | p
    · simp only [restoreProductStock, hp] at hok
      exact Except.noConfusion hok
    · simp only [restoreProductStock, hp] at hok
      have hdb2 : db2 = { db with
          products := updProductQty db.products item.productId
            (fun s => s + item.quantity) } := (Except.ok.inj hok).symm
      subst hdb2
      refine ⟨rfl, ?_⟩
      intro p2 hp2
      have hpp : p = p2 := Option.some.inj hp2
      subst hpp
      show (updProductQty db.products item.productId (fun s => s + item.quantity)).find?
        (fun w => w.id == item.productId) = _
      rw [find?_updProductQty_self]
      unfold getProduct at hp
      rw [hp]
      rfl

/-- Witness for C4: product 5 has one variant whose option set is not a
subset of the selection, so resolution fails and deduction targets the
flat product quantity. -/
theorem no_subset_variant_falls_back_to_product_witness :
    resolveItemVariantId ⟨[PRow.mk 5 10], [VRow.mk 1 5 3 [42]]⟩
      ⟨5, 2, some ⟨none, [[7]]⟩⟩ = none ∧
    deductStockForItem ⟨[PRow.mk 5 10], [VRow.mk 1 5 3 [42]]⟩
      ⟨5, 2, some ⟨none, [[7]]⟩⟩ =
      deductProductStock ⟨[PRow.mk 5 10], [VRow.mk 1 5 3 [42]]⟩ 5 2 := by
  have hc4 := no_subset_variant_falls_back_to_product
    ⟨[PRow.mk 5 10], [VRow.mk 1 5 3 [42]]⟩ ⟨5, 2, some ⟨none, [[7]]⟩⟩
    ⟨none, [[7]]⟩ rfl rfl (by decide)
  exact ⟨hc4.1, hc4.2.1⟩

lemma find?_append_some {α : Type} (p : α → Bool) (l1 l2 : List α) (v : α)
    (h : l1.find? p = some v) : (l1 ++ l2).find? p = some v := by
  induction l1 with
  | nil => exact Option.noConfusion h
  | cons a t ih =>
    rcases hpa : p a with _ | _
    · rw [List.find?_cons_of_neg t (by rw [hpa]; exact Bool.noConfusion)] at h
      rw [List.cons_append, List.find?_cons_of_neg _ (by rw [hpa]; exact Bool.noConfusion)]
      exact ih h
    · rw [List.find?_cons_of_pos t hpa] at h
      rw [List.cons_append, List.find?_cons_of_pos _ hpa]
      exact h

lemma find?_map_pres {α : Type} (p : α → Bool) (f : α → α)
    (hf : ∀ x, p (f x) = p x) (l : List α) :
    (l.map f).find? p = (l.find? p).map f := by
  induction l with
  | nil => rfl
  | cons a t ih =>
    rcases hpa : p a with _ | _
    · rw [List.map_cons, List.find?_cons_of_neg _ (by rw [hf a, hpa]; exact Bool.noConfusion),
        List.find?_cons_of_neg _ (by rw [hpa]; exact Bool.noConfusion)]
      exact ih
    · rw [List.map_cons, List.find?_cons_of_pos _ (by rw [hf a]; exact hpa),
        List.find?_cons_of_pos _ hpa]
      rfl

/-- A combination produced by `generateAllOptionCombinations` through
`createCombinationObject`: joined `name`, constituent option ids,
breadcrumb `optionPath`, summed `priceAdjustment`, computed `sortOrder`. -/
structure Combo where
  name : String
  options : List Nat
  optionPath : String
  priceAdjustment : ℚ
  sortOrder : Int
deriving DecidableEq, Repr

/-- `createOptionHash`: a stable function of the sorted option-id set (the
source md5-hashes the sorted joined ids; the sorted id list itself is the
stable hash value in this model). -/
def comboHash (c : Combo) : List Nat := c.options.insertionSort (· ≤ ·)

/-- A `ProductVariant` row as handled by generation, including the unique
`optionHash` key of the `(productId, optionHash)` index. -/
structure GVariant where
  name : String
  stock : Int
  priceAdjustment : ℚ
  optionPath : String
  optionHash : List Nat
  sortOrder : Int
  options : List Nat
deriving DecidableEq, Repr

/-- Outcome tag of `createOrUpdateVariant`. -/
inductive GenAction where
  | created
  | updated
  | skipped
deriving DecidableEq, Repr

/-- The row created for a fresh combination: stock 0, fields copied from
the combination, plus its variant-option join rows. -/
def newVariantOf (c : Combo) : GVariant :=
  ⟨c.name, 0, c.priceAdjustment, c.optionPath, comboHash c, c.sortOrder, c.options⟩

/-- `needsUpdate`: name or path drifted, or the price adjustment moved by
more than 0.01. -/
def variantNeedsUpdate (ev : GVariant) (c : Combo) : Bool :=
  decide (ev.name ≠ c.name) || decide (ev.optionPath ≠ c.optionPath) ||
    decide ((1 : ℚ)/100 < |ev.priceAdjustment - c.priceAdjustment|)

/-- The `prisma.productVariant.update` payload of the drifted case. -/
def applyComboUpdate (c : Combo) (v : GVariant) : GVariant :=
  { v with
    name := c.name
    optionPath := c.optionPath
    priceAdjustment := c.priceAdjustment
    sortOrder := c.sortOrder }

/-- `createOrUpdateVariant(product, combination)`: look the row up by the
unique `(productId, optionHash)` key; update it if drifted, skip it if
identical, create it (stock 0) when absent.  Rows are keyed by the unique
hash, so the prisma update-by-id rewrites exactly the row with this hash. -/
def createOrUpdateVariant (state : List GVariant) (c : Combo) :
    GenAction × GVariant × List GVariant :=
  match state.find? (fun v => decide (v.optionHash = comboHash c)) with
  | some ev =>
    if variantNeedsUpdate ev c then
      (.updated, applyComboUpdate c ev,
        state.map (fun v =>
          if v.optionHash = comboHash c then applyComboUpdate c v else v))
    else (.skipped, ev, state)
  | none => (.created, newVariantOf c, state ++ [newVariantOf c])

/-- The created/updated/skipped report of `generateVariantsForProduct`. -/
structure GenResults where
  created : List GVariant
  updated : List GVariant
  skipped : List GVariant
deriving DecidableEq, Repr

/-- One iteration of the combination loop, pushing the processed variant
into the matching report bucket. -/
def genStep (acc : GenResults × List GVariant) (c : Combo) :
    GenResults × List GVariant :=
  match createOrUpdateVariant acc.2 c with
  | (.created, v, st) => ({ acc.1 with created := acc.1.created ++ [v] }, st)
  | (.updated, v, st) => ({ acc.1 with updated := acc.1.updated ++ [v] }, st)
  | (.skipped, v, st) => ({ acc.1 with skipped := acc.1.skipped ++ [v] }, st)

/-- `generateVariantsForProduct(productId)` given the product's current
variant rows and the cartesian expansion of its option tree. -/
def generateVariantsForProduct (state : List GVariant) (combos : List Combo) :
    GenResults × List GVariant :=
  if combos.isEmpty then (⟨[], [], []⟩, state)
  else combos.foldl genStep (⟨[], [], []⟩, state)

/-- The hashes present in a variant table. -/
def hashesOf (state : List GVariant) : List (List Nat) :=
  state.map (fun v => v.optionHash)

/-- A combination is settled in a state when the row found under its hash
needs no update. -/
def comboSettled (c : Combo) (state : List GVariant) : Prop :=
  ∃ v, state.find? (fun w => decide (w.optionHash = comboHash c)) = some v ∧
    variantNeedsUpdate v c = false

lemma variantNeedsUpdate_newVariantOf (c : Combo) :
    variantNeedsUpdate (newVariantOf c) c = false := by
  norm_num [variantNeedsUpdate, newVariantOf]

lemma variantNeedsUpdate_applyComboUpdate (c : Combo) (v : GVariant) :
    variantNeedsUpdate (applyComboUpdate c v) c = false := by
  norm_num [variantNeedsUpdate, applyComboUpdate]

lemma applyComboUpdate_hash (c : Combo) (v : GVariant) :
    (applyComboUpdate c v).optionHash = v.optionHash := rfl

lemma hashesOf_map_upd (state : List GVariant) (c : Combo) :
    hashesOf (state.map fun w =>
      if w.optionHash = comboHash c then applyComboUpdate c w else w) =
      hashesOf state := by
  unfold hashesOf
  rw [List.map_map]
  apply List.map_congr_left
  intro x hx
  by_cases hxc : x.optionHash = comboHash c
  · simp [hxc, applyComboUpdate_hash]
  · simp [hxc]

lemma createOrUpdateVariant_created_eq (state : List GVariant) (c : Combo)
    (hf : state.find? (fun v => decide (v.optionHash = comboHash c)) = none) :
    createOrUpdateVariant state c =
      (.created, newVariantOf c, state ++ [newVariantOf c]) := by
  simp only [createOrUpdateVariant, hf]

lemma createOrUpdateVariant_skipped_eq (state : List GVariant) (c : Combo)
    (ev : GVariant)
    (hf : state.find? (fun v => decide (v.optionHash = comboHash c)) = some ev)
    (hup : variantNeedsUpdate ev c = false) :
    createOrUpdateVariant state c = (.skipped, ev, state) := by
  simp [createOrUpdateVariant, hf, hup]

lemma createOrUpdateVariant_updated_eq (state : List GVariant) (c : Combo)
    (ev : GVariant)
    (hf : state.find? (fun v => decide (v.optionHash = comboHash c)) = some ev)
    (hup : variantNeedsUpdate ev c = true) :
    createOrUpdateVariant state c =
      (.updated, applyComboUpdate c ev,
        state.map fun v =>
          if v.optionHash = comboHash c then applyComboUpdate c v else v) := by
  simp [createOrUpdateVariant, hf, hup]

lemma createOrUpdateVariant_settles (state : List GVariant) (c : Combo) :
    comboSettled c (createOrUpdateVariant state c).2.2 := by
  rcases hf : state.find? (fun v => decide (v.optionHash = comboHash c)) with _ | ev
  · rw [createOrUpdateVariant_created_eq state c hf]
    refine ⟨newVariantOf c, ?_, variantNeedsUpdate_newVariantOf c⟩
    show (state ++ [newVariantOf c]).find? (fun w => decide (w.optionHash = comboHash c)) = _
    rw [List.find?_append, hf, List.find?_cons_of_pos _ (by simp [newVariantOf])]
    rfl
  · rcases hup : variantNeedsUpdate ev c with _ | _
    · rw [createOrUpdateVariant_skipped_eq state c ev hf hup]
      exact ⟨ev, hf, hup⟩
    · rw [createOrUpdateVariant_updated_eq state c ev hf hup]
      refine ⟨applyComboUpdate c ev, ?_, variantNeedsUpdate_applyComboUpdate c ev⟩
      show (state.map fun v =>
        if v.optionHash = comboHash c then applyComboUpdate c v else v).find?
          (fun w => decide (w.optionHash = comboHash c)) = _
      rw [find?_map_pres _ _ (fun x => by
        by_cases hx : x.optionHash = comboHash c
        · simp [hx, applyComboUpdate_hash]
        · simp [hx]), hf]
      have hev0 := List.find?_some hf
      have hev : ev.optionHash = comboHash c := of_decide_eq_true hev0
      show some (if ev.optionHash = comboHash c then applyComboUpdate c ev else ev) = _
      rw [if_pos hev]

lemma createOrUpdateVariant_preserves (state : List GVariant) (c c2 : Combo)
    (hne : comboHash c2 ≠ comboHash c) (hs : comboSettled c2 state) :
    comboSettled c2 (createOrUpdateVariant state c).2.2 := by
  obtain ⟨v, hv, hnup⟩ := hs
  rcases hf : state.find? (fun v => decide (v.optionHash = comboHash c)) with _ | ev
  · rw [createOrUpdateVariant_created_eq state c hf]
    exact ⟨v, find?_append_some _ _ _ _ hv, hnup⟩
  · rcases hup : variantNeedsUpdate ev c with _ | _
    · rw [createOrUpdateVariant_skipped_eq state c ev hf hup]
      exact ⟨v, hv, hnup⟩
    · rw [createOrUpdateVariant_updated_eq state c ev hf hup]
      refine ⟨v, ?_, hnup⟩
      show (state.map fun w =>
        if w.optionHash = comboHash c then applyComboUpdate c w else w).find?
          (fun w => decide (w.optionHash = comboHash c2)) = _
      rw [find?_map_pres _ _ (fun x => by
        by_cases hx : x.optionHash = comboHash c
        · simp [hx, applyComboUpdate_hash]
        · simp [hx]), hv]
      have hvh0 := List.find?_some hv
      have hvh : v.optionHash = comboHash c2 := of_decide_eq_true hvh0
      show some (if v.optionHash = comboHash c then applyComboUpdate c v else v) = _
      rw [if_neg (by rw [hvh]; exact hne)]

lemma hashesOf_mono (state : List GVariant) (c : Combo) :
    ∀ h ∈ hashesOf state, h ∈ hashesOf (createOrUpdateVariant state c).2.2 := by
  intro hh hmem
  rcases hf : state.find? (fun v => decide (v.optionHash = comboHash c)) with _ | ev
  · rw [createOrUpdateVariant_created_eq state c hf]
    show hh ∈ hashesOf (state ++ [newVariantOf c])
    unfold hashesOf at hmem ⊢
    rw [List.map_append]
    exact List.mem_append_left _ hmem
  · rcases hup : variantNeedsUpdate ev c with _ | _
    · rw [createOrUpdateVariant_skipped_eq state c ev hf hup]
      exact hmem
    · rw [createOrUpdateVariant_updated_eq state c ev hf hup]
      show hh ∈ hashesOf (state.map fun w =>
        if w.optionHash = comboHash c then applyComboUpdate c w else w)
      rw [hashesOf_map_upd]
      exact hmem

lemma hashesOf_nodup (state : List GVariant) (c : Combo)
    (h : (hashesOf state).Nodup) :
    (hashesOf (createOrUpdateVariant state c).2.2).Nodup := by
  rcases hf : state.find? (fun v => decide (v.optionHash = comboHash c)) with _ | ev
  · rw [createOrUpdateVariant_created_eq state c hf]
    show (hashesOf (state ++ [newVariantOf c])).Nodup
    unfold hashesOf
    rw [List.map_append]
    refine List.Nodup.append h (by simp) ?_
    intro a ha hb
    simp only [List.map_cons, List.map_nil, List.mem_cons, List.not_mem_nil, or_false] at hb
    rw [List.find?_eq_none] at hf
    simp only [hashesOf, List.mem_map] at ha
    obtain ⟨v, hv, hva⟩ := ha
    have hvh : v.optionHash = comboHash c := by
      rw [hva, hb]
      rfl
    exact absurd (decide_eq_true hvh) (hf v hv)
  · rcases hup : variantNeedsUpdate ev c with _ | _
    · rw [createOrUpdateVariant_skipped_eq state c ev hf hup]
      exact h
    · rw [createOrUpdateVariant_updated_eq state c ev hf hup]
      show (hashesOf (state.map fun w =>
        if w.optionHash = comboHash c then applyComboUpdate c w else w)).Nodup
      rw [hashesOf_map_upd]
      exact h

lemma genStep_state (acc : GenResults × List GVariant) (c : Combo) :
    (genStep acc c).2 = (createOrUpdateVariant acc.2 c).2.2 := by
  unfold genStep
  rcases h : createOrUpdateVariant acc.2 c with ⟨a, v, st⟩
  cases a <;> rfl

lemma foldl_genStep_state_preserves (combos : List Combo) :
    ∀ (acc : GenResults × List GVariant) (c2 : Combo),
      comboSettled c2 acc.2 → (∀ c ∈ combos, comboHash c ≠ comboHash c2) →
      comboSettled c2 (combos.foldl genStep acc).2 := by
  induction combos with
  | nil => intro acc c2 hs _; exact hs
  | cons c t ih =>
    intro acc c2 hs hne
    rw [List.foldl_cons]
    apply ih (genStep acc c) c2
    · rw [genStep_state]
      exact createOrUpdateVariant_preserves acc.2 c c2
        (Ne.symm (hne c (List.mem_cons_self c t))) hs
    · intro c3 h3
      exact hne c3 (List.mem_cons_of_mem c h3)

lemma foldl_genStep_settles (combos : List Combo) :
    ∀ (acc : GenResults × List GVariant), (combos.map comboHash).Nodup →
      ∀ c ∈ combos, comboSettled c (combos.foldl genStep acc).2 := by
  induction combos with
  | nil => intro acc _ c hc; exact absurd hc (List.not_mem_nil c)
  | cons c0 t ih =>
    intro acc hnd c hc
    have hnd2 : (comboHash c0 :: t.map comboHash).Nodup := by
      rw [← List.map_cons]
      exact hnd
    rw [List.foldl_cons]
    rcases List.mem_cons.1 hc with heq | ht
    · subst heq
      apply foldl_genStep_state_preserves t (genStep acc c) c
      · rw [genStep_state]
        exact createOrUpdateVariant_settles acc.2 c
      · intro c3 h3 hcc
        exact (List.nodup_cons.1 hnd2).1 (hcc ▸ List.mem_map_of_mem comboHash h3)
    · exact ih (genStep acc c0) (List.nodup_cons.1 hnd2).2 c ht

lemma foldl_genStep_skips (combos : List Combo) :
    ∀ (acc : GenResults × List GVariant),
      (∀ c ∈ combos, comboSettled c acc.2) →
      (combos.foldl genStep acc).2 = acc.2 ∧
      (combos.foldl genStep acc).1.created = acc.1.created ∧
      (combos.foldl genStep acc).1.updated = acc.1.updated ∧
      (combos.foldl genStep acc).1.skipped.length =
        acc.1.skipped.length + combos.length := by
  induction combos with
  | nil => intro acc _; exact ⟨rfl, rfl, rfl, rfl⟩
  | cons c0 t ih =>
    intro acc hset
    rw [List.foldl_cons]
    obtain ⟨v, hv, hnup⟩ := hset c0 (List.mem_cons_self c0 t)
    have hstep : genStep acc c0 =
        ({ acc.1 with skipped := acc.1.skipped ++ [v] }, acc.2) := by
      unfold genStep
      rw [createOrUpdateVariant_skipped_eq acc.2 c0 v hv hnup]
    rw [hstep]
    have hrest := ih ({ acc.1 with skipped := acc.1.skipped ++ [v] }, acc.2)
      (fun c hc => hset c (List.mem_cons_of_mem c0 hc))
    refine ⟨hrest.1, hrest.2.1, hrest.2.2.1, ?_⟩
    rw [hrest.2.2.2]
    simp only [List.length_append, List.length_cons, List.length_nil]
    omega

lemma foldl_genStep_hash_mono (combos : List Combo) :
    ∀ (acc : GenResults × List GVariant),
      ∀ h ∈ hashesOf acc.2, h ∈ hashesOf (combos.foldl genStep acc).2 := by
  induction combos with
  | nil => intro acc hh hmem; exact hmem
  | cons c0 t ih =>
    intro acc hh hmem
    rw [List.foldl_cons]
    apply ih (genStep acc c0)
    rw [genStep_state]
    exact hashesOf_mono acc.2 c0 hh hmem

lemma foldl_genStep_hash_nodup (combos : List Combo) :
    ∀ (acc : GenResults × List GVariant),
      (hashesOf acc.2).Nodup → (hashesOf (combos.foldl genStep acc).2).Nodup := by
  induction combos with
  | nil => intro acc h; exact h
  | cons c0 t ih =>
    intro acc h
    rw [List.foldl_cons]
    apply ih (genStep acc c0)
    rw [genStep_state]
    exact hashesOf_nodup acc.2 c0 h

lemma foldl_genStep_created (combos : List Combo) (state0 : List GVariant) :
    ∀ (acc : GenResults × List GVariant),
      (∀ h ∈ hashesOf state0, h ∈ hashesOf acc.2) →
      (∀ v ∈ acc.1.created, v.stock = 0 ∧ v.optionHash ∉ hashesOf state0) →
      ∀ v ∈ (combos.foldl genStep acc).1.created,
        v.stock = 0 ∧ v.optionHash ∉ hashesOf state0 := by
  induction combos with
  | nil => intro acc _ hP; exact hP
  | cons c0 t ih =>
    intro acc hsub hP
    rw [List.foldl_cons]
    apply ih (genStep acc c0)
    · intro hh hmem
      rw [genStep_state]
      exact hashesOf_mono acc.2 c0 hh (hsub hh hmem)
    · rcases hf : acc.2.find? (fun v => decide (v.optionHash = comboHash c0)) with _ | ev
      · have hstep : genStep acc c0 =
            ({ acc.1 with created := acc.1.created ++ [newVariantOf c0] },
              acc.2 ++ [newVariantOf c0]) := by
          unfold genStep
          rw [createOrUpdateVariant_created_eq acc.2 c0 hf]
        rw [hstep]
        intro v hv
        rcases List.mem_append.1 hv with hold | hnew
        · exact hP v hold
        · have hveq : v = newVariantOf c0 := by simpa using hnew
          subst hveq
          refine ⟨rfl, ?_⟩
          intro hmem0
          have hin := hsub _ hmem0
          rw [List.find?_eq_none] at hf
          simp only [hashesOf, List.mem_map] at hin
          obtain ⟨w, hw, hwh⟩ := hin
          have hwh2 : w.optionHash = comboHash c0 := hwh
          exact absurd (decide_eq_true hwh2) (hf w hw)
      · rcases hup : variantNeedsUpdate ev c0 with _ | _
        · have hstep : genStep acc c0 =
              ({ acc.1 with skipped := acc.1.skipped ++ [ev] }, acc.2) := by
            unfold genStep
            rw [createOrUpdateVariant_skipped_eq acc.2 c0 ev hf hup]
          rw [hstep]
          exact hP
        · have hstep : genStep acc c0 =
              ({ acc.1 with updated := acc.1.updated ++ [applyComboUpdate c0 ev] },
                acc.2.map fun v =>
                  if v.optionHash = comboHash c0 then applyComboUpdate c0 v else v) := by
            unfold genStep
            rw [createOrUpdateVariant_updated_eq acc.2 c0 ev hf hup]
          rw [hstep]
          exact hP

/-- C8: variant generation is an idempotent upsert keyed by the
per-product-unique option hash: a fresh run creates rows with stock 0 only
for hashes that do not exist yet, never duplicates a hash and never drops
one, and a second run over the same (unchanged) combination list creates
zero variants, updates zero, reports every combination as skipped, and
leaves the variant table untouched. -/
theorem generate_variants_idempotent
    (state : List GVariant) (combos : List Combo)
    (hC : (combos.map comboHash).Nodup)
    (hS : (hashesOf state).Nodup) :
    (generateVariantsForProduct
        (generateVariantsForProduct state combos).2 combos).1.created = [] ∧
    (generateVariantsForProduct
        (generateVariantsForProduct state combos).2 combos).1.updated = [] ∧
    (generateVariantsForProduct
        (generateVariantsForProduct state combos).2 combos).1.skipped.length =
      combos.length ∧
    (generateVariantsForProduct
        (generateVariantsForProduct state combos).2 combos).2 =
      (generateVariantsForProduct state combos).2 ∧
    (∀ v ∈ (generateVariantsForProduct state combos).1.created,
      v.stock = 0 ∧ v.optionHash ∉ hashesOf state) ∧
    (hashesOf (generateVariantsForProduct state combos).2).Nodup ∧
    (∀ v ∈ state, ∃ w ∈ (generateVariantsForProduct state combos).2,
      w.optionHash = v.optionHash) := by
  rcases hempty : combos.isEmpty with _ | _
  · have hgen : ∀ st : List GVariant, generateVariantsForProduct st combos =
        combos.foldl genStep (⟨[], [], []⟩, st) := by
      intro st
      unfold generateVariantsForProduct
      rw [hempty]
      rfl
    have hsettled : ∀ c ∈ combos,
        comboSettled c (generateVariantsForProduct state combos).2 := by
      rw [hgen state]
      exact foldl_genStep_settles combos (⟨[], [], []⟩, state) hC
    have hskips := foldl_genStep_skips combos
      (⟨[], [], []⟩, (generateVariantsForProduct state combos).2) hsettled
    refine ⟨?_, ?_, ?_, ?_, ?_, ?_, ?_⟩
    · rw [hgen]
      exact hskips.2.1
    · rw [hgen]
      exact hskips.2.2.1
    · rw [hgen]
      rw [hskips.2.2.2]
      simp
    · rw [hgen]
      exact hskips.1
    · rw [hgen state]
      exact foldl_genStep_created combos state (⟨[], [], []⟩, state)
        (fun hh hm => hm) (fun v hv => absurd hv (List.not_mem_nil v))
    · rw [hgen state]
      exact foldl_genStep_hash_nodup combos (⟨[], [], []⟩, state) hS
    · intro v hv
      rw [hgen state]
      have hmem : v.optionHash ∈
          hashesOf (combos.foldl genStep (⟨[], [], []⟩, state)).2 :=
        foldl_genStep_hash_mono combos (⟨[], [], []⟩, state) v.optionHash
          (List.mem_map_of_mem _ hv)
      simp only [hashesOf, List.mem_map] at hmem
      obtain ⟨w, hw, hwh⟩ := hmem
      exact ⟨w, hw, hwh⟩
  · have hnil : combos = [] := by
      cases combos with
      | nil => rfl
      | cons a t => exact Bool.noConfusion hempty
    subst hnil
    refine ⟨rfl, rfl, rfl, rfl, ?_, hS, ?_⟩
    · intro v hv
      exact absurd hv (List.not_mem_nil v)
    · intro v hv
      exact ⟨v, hv, rfl⟩

/-- Witness for C8: one combination over an empty variant table. -/
theorem generate_variants_idempotent_witness :
    (generateVariantsForProduct
        (generateVariantsForProduct [] [Combo.mk "A" [1] "G:A" 0 0]).2
        [Combo.mk "A" [1] "G:A" 0 0]).1.created = [] ∧
    (generateVariantsForProduct
        (generateVariantsForProduct [] [Combo.mk "A" [1] "G:A" 0 0]).2
        [Combo.mk "A" [1] "G:A" 0 0]).1.skipped.length = 1 := by
  have hw := generate_variants_idempotent [] [Combo.mk "A" [1] "G:A" 0 0]
    (by decide) (by decide)
  exact ⟨hw.1, hw.2.2.1⟩

/-- A node of the hierarchical stock display tree built by
`buildHierarchicalTree`: its `level`, its (aggregated) `stock`, and its
children; ids and names are elided. -/
inductive StockNode : Type where
  | node (level : Nat) (stock : Int) (children : List StockNode)
deriving Repr

/-- The node's level. -/
def StockNode.level : StockNode → Nat
  | .node l _ _ => l

/-- The node's stock. -/
def StockNode.stock : StockNode → Int
  | .node _ s _ => s

/-- The node's children. -/
def StockNode.children : StockNode → List StockNode
  | .node _ _ c => c

/-- `nodes.reduce((total, group) => total + group.stock, 0)`. -/
def sumStocks (l : List StockNode) : Int :=
  l.foldl (fun total n => total + n.stock) 0

/-- `calculateHierarchicalTotalStock(tree)`: 0 for an empty tree, else the
sum over the level-1 root groups when any exist, else the sum over all
root nodes. -/
def calculateHierarchicalTotalStock (tree : List StockNode) : Int :=
  if tree.isEmpty then 0
  else
    let rootGroups := tree.filter (fun n => n.level == 1)
    if 0 < rootGroups.length then sumStocks rootGroups
    else sumStocks tree

mutual

/-- Total stock held at the leaves below a node (the node's own stock when
it is a leaf). -/
def leafSum : StockNode → Int
  | .node _ s [] => s
  | .node _ _ (c :: cs) => leafSumList (c :: cs)

/-- `leafSum` summed over a forest. -/
def leafSumList : List StockNode → Int
  | [] => 0
  | n :: ns => leafSum n + leafSumList ns

end

mutual

/-- The builder invariant of `buildLevelNodes` / `buildTreeFromOptionGroups`:
every non-leaf node's stock is the sum of its children's stock. -/
def aggB : StockNode → Bool
  | .node _ s cs => (cs.isEmpty || (s == sumStocks cs)) && aggBList cs

/-- `aggB` over a forest. -/
def aggBList : List StockNode → Bool
  | [] => true
  | n :: ns => aggB n && aggBList ns

end

lemma sumStocks_cons (n : StockNode) (ns : List StockNode) :
    sumStocks (n :: ns) = n.stock + sumStocks ns := by
  unfold sumStocks
  rw [List.foldl_cons]
  have hshift : ∀ (l : List StockNode) (a : Int),
      l.foldl (fun t m => t + m.stock) a = a + l.foldl (fun t m => t + m.stock) 0 := by
    intro l
    induction l with
    | nil => intro a; simp
    | cons c cs ih =>
      intro a
      rw [List.foldl_cons, List.foldl_cons, ih, ih (0 + c.stock)]
      ring
  rw [hshift ns (0 + n.stock)]
  ring

mutual

theorem aggB_stock_eq : ∀ (n : StockNode), aggB n = true → n.stock = leafSum n
  | .node _ _ [], _ => rfl
  | .node l s (c :: cs), h => by
    have hc : ((c :: cs).isEmpty || (s == sumStocks (c :: cs))) = true ∧
        aggBList (c :: cs) = true := by
      simpa [aggB] using h
    have hs : s = sumStocks (c :: cs) := by
      have h1 := hc.1
      simp only [List.isEmpty_cons, Bool.false_or, beq_iff_eq] at h1
      exact h1
    show s = leafSumList (c :: cs)
    rw [hs]
    exact aggBList_sum_eq (c :: cs) hc.2

theorem aggBList_sum_eq :
    ∀ (l : List StockNode), aggBList l = true → sumStocks l = leafSumList l
  | [], _ => rfl
  | n :: ns, h => by
    have hc : aggB n = true ∧ aggBList ns = true := by simpa [aggBList] using h
    rw [sumStocks_cons]
    show n.stock + sumStocks ns = leafSum n + leafSumList ns
    rw [aggB_stock_eq n hc.1, aggBList_sum_eq ns hc.2]

end

/-- C9: when the display tree has level-1 nodes, the product total is the
sum of the level-1 nodes' stock only; and on an aggregated tree whose
roots are the level-1 groups this equals the total leaf stock counted
once — not a sum across all levels. -/
theorem hierarchical_total_level1_only
    (tree : List StockNode) (n1 : StockNode)
    (hmem : n1 ∈ tree) (hlev1 : n1.level = 1) :
    calculateHierarchicalTotalStock tree =
      sumStocks (tree.filter (fun n => n.level == 1)) ∧
    ((∀ n ∈ tree, n.level = 1) → aggBList tree = true →
      calculateHierarchicalTotalStock tree = leafSumList tree) := by
  have htne : tree.isEmpty = false := by
    cases tree with
    | nil => exact absurd hmem (List.not_mem_nil n1)
    | cons a t => rfl
  have hfmem : n1 ∈ tree.filter (fun n => n.level == 1) :=
    List.mem_filter.2 ⟨hmem, by simp [hlev1]⟩
  have hlen : 0 < (tree.filter (fun n => n.level == 1)).length :=
    List.length_pos_of_mem hfmem
  have h1 : calculateHierarchicalTotalStock tree =
      sumStocks (tree.filter (fun n => n.level == 1)) := by
    unfold calculateHierarchicalTotalStock
    rw [htne]
    show (if 0 < (tree.filter (fun n => n.level == 1)).length
      then sumStocks (tree.filter (fun n => n.level == 1))
      else sumStocks tree) = _
    rw [if_pos hlen]
  refine ⟨h1, ?_⟩
  intro hall hagg
  have hfe : tree.filter (fun n => n.level == 1) = tree :=
    List.filter_eq_self.2 (fun a ha => by simp [hall a ha])
  rw [h1, hfe]
  exact aggBList_sum_eq tree hagg

/-- Witness for C9 at the spec's example shape: two level-1 groups with
stock 20 and 30 aggregated from level-2 children summing 20 and 30; the
reported total is 50, the sum at level 1 only, not 100. -/
theorem hierarchical_total_level1_only_witness :
    calculateHierarchicalTotalStock
      [.node 1 20 [.node 2 20 []], .node 1 30 [.node 2 30 []]] =
      leafSumList [.node 1 20 [.node 2 20 []], .node 1 30 [.node 2 30 []]] ∧
    calculateHierarchicalTotalStock
      [.node 1 20 [.node 2 20 []], .node 1 30 [.node 2 30 []]] = 50 := by
  have hw := (hierarchical_total_level1_only
    [.node 1 20 [.node 2 20 []], .node 1 30 [.node 2 30 []]]
    (.node 1 20 [.node 2 20 []]) (List.mem_cons_self _ _) rfl).2
    (by decide) (by decide)
  exact ⟨hw, by decide⟩

/-- A `ProductOptionGroup` row of the product under consideration:
surrogate id, self-referential `parentGroupId`, `level`, `isParent`. -/
structure OGroup where
  id : Nat
  parentGroupId : Option Nat
  level : Nat
  isParent : Bool
deriving DecidableEq, Repr

/-- A `ProductOption` row (id and owning group). -/
structure ORow where
  id : Nat
  optionGroupId : Nat
deriving DecidableEq, Repr

/-- The per-product catalog slice the option-group deletion handler reads
and writes: the product's groups, options, variants (reusing `VRow` with
its option-id set), and the `productVariantId` references of all order
items. -/
structure Catalog where
  groups : List OGroup
  options : List ORow
  variants : List VRow
  orderItemVariantIds : List (Option Nat)
deriving DecidableEq, Repr

/-- The body test of the descendant-collection loop: the group's parent is
already marked and the group itself is not. -/
def childOfMarked (g : OGroup) (s : List Nat) : Bool :=
  (match g.parentGroupId with
    | some p => decide (p ∈ s)
    | none => false) && decide (g.id ∉ s)

/-- One pass of the `while (changed)` loop of the deletion handler: walk
all group rows, adding each whose parent is already in the set (the JS Set
mutates during the pass, hence the fold). -/
def closPass (groups : List OGroup) (acc : List Nat) : List Nat :=
  groups.foldl (fun s g => if childOfMarked g s then s ++ [g.id] else s) acc

/-- The fuelled `while (changed)` loop: iterate `closPass` until a pass
adds nothing (passes only append ids, so stability is length equality). -/
def closLoop : Nat → List OGroup → List Nat → List Nat
  | 0, _, acc => acc
  | fuel + 1, groups, acc =>
    let acc2 := closPass groups acc
    if acc2.length = acc.length then acc else closLoop fuel groups acc2

/-- The `toDelete` set of the handler: the target group and all its
descendants by repeated parent-child closure (`groups.length + 1` passes
always reach the fixed point). -/
def toDelete (groups : List OGroup) (gid : Nat) : List Nat :=
  closLoop (groups.length + 1) groups [gid]

/-- `y`'s row lists `x` as its parent. -/
def ChildStep (groups : List OGroup) (x y : Nat) : Prop :=
  ∃ g ∈ groups, g.id = y ∧ g.parentGroupId = some x

/-- `y` is `x` or a descendant of `x` through parent pointers. -/
def Descends (groups : List OGroup) (x y : Nat) : Prop :=
  Relation.ReflTransGen (ChildStep groups) x y

lemma foldl_closStep_prefix (groups : List OGroup) :
    ∀ acc : List Nat, ∃ ext, closPass groups acc = acc ++ ext := by
  unfold closPass
  induction groups with
  | nil => intro acc; exact ⟨[], (List.append_nil acc).symm⟩
  | cons g gs ih =>
    intro acc
    rw [List.foldl_cons]
    rcases hc : childOfMarked g acc with _ | _
    · rw [if_neg (by simp)]
      exact ih acc
    · rw [if_pos rfl]
      obtain ⟨ext, hext⟩ := ih (acc ++ [g.id])
      exact ⟨[g.id] ++ ext, by rw [hext, List.append_assoc]⟩

lemma closPass_mem (groups : List OGroup) :
    ∀ (acc : List Nat) (x : Nat), x ∈ closPass groups acc →
      x ∈ acc ∨ (x ∈ groups.map (fun g => g.id) ∧ x ∉ acc) := by
  unfold closPass
  induction groups with
  | nil => intro acc x hx; exact Or.inl hx
  | cons g gs ih =>
    intro acc x hx
    rw [List.foldl_cons] at hx
    rcases hc : childOfMarked g acc with _ | _
    · rw [if_neg (by simp [hc])] at hx
      rcases ih acc x hx with h | ⟨hmap, hnot⟩
      · exact Or.inl h
      · exact Or.inr ⟨by rw [List.map_cons]; exact List.mem_cons_of_mem _ hmap, hnot⟩
    · rw [if_pos hc] at hx
      rcases ih (acc ++ [g.id]) x hx with h | ⟨hmap, hnot⟩
      · rcases List.mem_append.1 h with h1 | h2
        · exact Or.inl h1
        · have hxg : x = g.id := by simpa using h2
          have hand : ((match g.parentGroupId with
              | some p => decide (p ∈ acc)
              | none => false) = true) ∧ decide (g.id ∉ acc) = true := by
            rw [← Bool.and_eq_true]
            exact hc
          have hgn : g.id ∉ acc := of_decide_eq_true hand.2
          exact Or.inr ⟨by rw [List.map_cons, hxg]; exact List.mem_cons_self _ _,
            hxg ▸ hgn⟩
      · refine Or.inr ⟨by rw [List.map_cons]; exact List.mem_cons_of_mem _ hmap, ?_⟩
        intro hxa
        exact hnot (List.mem_append_left _ hxa)

lemma foldl_step_sound (groups : List OGroup) (gid : Nat) :
    ∀ (gs : List OGroup), (∀ g ∈ gs, g ∈ groups) →
      ∀ acc : List Nat, (∀ x ∈ acc, Descends groups gid x) →
      ∀ x ∈ gs.foldl (fun s g => if childOfMarked g s then s ++ [g.id] else s) acc,
        Descends groups gid x := by
  intro gs
  induction gs with
  | nil => intro _ acc hgood x hx; exact hgood x hx
  | cons g t ih =>
    intro hsub acc hgood x hx
    rw [List.foldl_cons] at hx
    refine ih (fun g2 h2 => hsub g2 (List.mem_cons_of_mem g h2)) _ ?_ x hx
    rcases hc : childOfMarked g acc with _ | _
    · rw [if_neg (by simp)]
      exact hgood
    · rw [if_pos rfl]
      intro y hy
      rcases List.mem_append.1 hy with h1 | h2
      · exact hgood y h1
      · have hyg : y = g.id := by simpa using h2
        subst hyg
        have hc2 : ((match g.parentGroupId with
            | some p => decide (p ∈ acc)
            | none => false) = true) ∧ decide (g.id ∉ acc) = true := by
          rw [← Bool.and_eq_true]
          exact hc
        rcases hp : g.parentGroupId with _ | p
        · rw [hp] at hc2
          exact absurd hc2.1 Bool.noConfusion
        · rw [hp] at hc2
          have hpmem : p ∈ acc := of_decide_eq_true hc2.1
          exact Relation.ReflTransGen.tail (hgood p hpmem)
            ⟨g, hsub g (List.mem_cons_self g t), rfl, hp⟩

lemma closPass_sound (groups : List OGroup) (gid : Nat)
    (acc : List Nat) (hgood : ∀ x ∈ acc, Descends groups gid x) :
    ∀ x ∈ closPass groups acc, Descends groups gid x :=
  foldl_step_sound groups gid groups (fun _ h => h) acc hgood

lemma foldl_step_stable (groups : List OGroup) :
    ∀ (gs : List OGroup) (acc : List Nat),
      gs.foldl (fun s g => if childOfMarked g s then s ++ [g.id] else s) acc = acc →
      ∀ g ∈ gs, childOfMarked g acc = false := by
  intro gs
  induction gs with
  | nil => intro acc _ g hg; exact absurd hg (List.not_mem_nil g)
  | cons g0 t ih =>
    intro acc heq g hg
    rw [List.foldl_cons] at heq
    rcases hc : childOfMarked g0 acc with _ | _
    · rw [if_neg (by simp [hc])] at heq
      rcases List.mem_cons.1 hg with h1 | h2
      · subst h1
        exact hc
      · exact ih acc heq g h2
    · rw [if_pos hc] at heq
      exfalso
      obtain ⟨ext, hext⟩ := foldl_closStep_prefix t (acc ++ [g0.id])
      have heq2 : (acc ++ [g0.id]) ++ ext = acc := by
        rw [← hext]
        exact heq
      have hlen := congrArg List.length heq2
      simp [List.length_append] at hlen

lemma closPass_decomp (gs : List OGroup) :
    ∀ s : List Nat, ∃ ext,
      gs.foldl (fun s2 g => if childOfMarked g s2 then s2 ++ [g.id] else s2) s =
        s ++ ext ∧ ∀ e ∈ ext, e ∉ s := by
  induction gs with
  | nil =>
    intro s
    exact ⟨[], (List.append_nil s).symm, fun e he => absurd he (List.not_mem_nil e)⟩
  | cons g t ih =>
    intro s
    rw [List.foldl_cons]
    rcases hc : childOfMarked g s with _ | _
    · rw [if_neg (by simp [hc])]
      exact ih s
    · rw [if_pos rfl]
      obtain ⟨ext1, hext1, hnot1⟩ := ih (s ++ [g.id])
      refine ⟨[g.id] ++ ext1, by rw [hext1, List.append_assoc], ?_⟩
      intro e he
      rcases List.mem_append.1 he with h1 | h2
      · have heg : e = g.id := by simpa using h1
        subst heg
        have hand : ((match g.parentGroupId with
            | some p => decide (p ∈ s)
            | none => false) = true) ∧ decide (g.id ∉ s) = true := by
          rw [← Bool.and_eq_true]
          exact hc
        exact of_decide_eq_true hand.2
      · intro hes
        exact hnot1 e h2 (List.mem_append_left _ hes)

lemma closLoop_sound (groups : List OGroup) (gid : Nat) :
    ∀ (fuel : Nat) (acc : List Nat), (∀ x ∈ acc, Descends groups gid x) →
      ∀ x ∈ closLoop fuel groups acc, Descends groups gid x := by
  intro fuel
  induction fuel with
  | zero => intro acc h x hx; exact h x hx
  | succ n ih =>
    intro acc h x hx
    simp only [closLoop] at hx
    by_cases hlen : (closPass groups acc).length = acc.length
    · rw [if_pos hlen] at hx
      exact h x hx
    · rw [if_neg hlen] at hx
      exact ih (closPass groups acc) (closPass_sound groups gid acc h) x hx

lemma closLoop_contains (groups : List OGroup) :
    ∀ (fuel : Nat) (acc : List Nat), ∀ x ∈ acc, x ∈ closLoop fuel groups acc := by
  intro fuel
  induction fuel with
  | zero => intro acc x hx; exact hx
  | succ n ih =>
    intro acc x hx
    simp only [closLoop]
    by_cases hlen : (closPass groups acc).length = acc.length
    · rw [if_pos hlen]
      exact hx
    · rw [if_neg hlen]
      apply ih (closPass groups acc)
      obtain ⟨ext, hext, -⟩ := closPass_decomp groups acc
      rw [show closPass groups acc =
        groups.foldl (fun s2 g => if childOfMarked g s2 then s2 ++ [g.id] else s2) acc
        from rfl, hext]
      exact List.mem_append_left _ hx

lemma closLoop_fixed (groups : List OGroup) (allIds : List Nat)
    (hgsub : ∀ g ∈ groups, g.id ∈ allIds) :
    ∀ (fuel : Nat) (acc : List Nat), (∀ x ∈ acc, x ∈ allIds) →
      (allIds.toFinset \ acc.toFinset).card < fuel →
      closPass groups (closLoop fuel groups acc) = closLoop fuel groups acc := by
  intro fuel
  induction fuel with
  | zero =>
    intro acc _ hcard
    exact absurd hcard (Nat.not_lt_zero _)
  | succ n ih =>
    intro acc hsub hcard
    simp only [closLoop]
    by_cases hlen : (closPass groups acc).length = acc.length
    · rw [if_pos hlen]
      obtain ⟨ext, hext, -⟩ := closPass_decomp groups acc
      have hext2 : closPass groups acc = acc ++ ext := hext
      have hlen2 : acc.length + ext.length = acc.length := by
        rw [← List.length_append, ← hext2]
        exact hlen
      have hext0 : ext = [] := List.length_eq_zero.1 (by omega)
      rw [hext2, hext0, List.append_nil]
    · rw [if_neg hlen]
      obtain ⟨ext, hext, hnot⟩ := closPass_decomp groups acc
      have hext2 : closPass groups acc = acc ++ ext := hext
      have hextne : ext ≠ [] := by
        intro h0
        rw [h0, List.append_nil] at hext2
        exact hlen (by rw [hext2])
      obtain ⟨e, he⟩ := List.exists_mem_of_ne_nil ext hextne
      have henot : e ∉ acc := hnot e he
      have hecp : e ∈ closPass groups acc := by
        rw [hext2]
        exact List.mem_append_right _ he
      have heall : e ∈ allIds := by
        rcases closPass_mem groups acc e hecp with h1 | ⟨hmap, -⟩
        · exact absurd h1 henot
        · simp only [List.mem_map] at hmap
          obtain ⟨g, hg, hgid⟩ := hmap
          exact hgid ▸ hgsub g hg
      apply ih (closPass groups acc)
      · intro x hx
        rcases closPass_mem groups acc x hx with h1 | ⟨hmap, -⟩
        · exact hsub x h1
        · simp only [List.mem_map] at hmap
          obtain ⟨g, hg, hgid⟩ := hmap
          exact hgid ▸ hgsub g hg
      · have hss : allIds.toFinset \ (closPass groups acc).toFinset ⊂
            allIds.toFinset \ acc.toFinset := by
          constructor
          · intro x hx
            rw [Finset.mem_sdiff] at hx ⊢
            refine ⟨hx.1, ?_⟩
            intro hxa
            exact hx.2 (by
              rw [List.mem_toFinset] at hxa ⊢
              rw [hext2]
              exact List.mem_append_left _ hxa)
          · intro hsup
            have hein : e ∈ allIds.toFinset \ acc.toFinset := by
              rw [Finset.mem_sdiff, List.mem_toFinset, List.mem_toFinset]
              exact ⟨heall, henot⟩
            have := hsup hein
            simp only [Finset.mem_sdiff, List.mem_toFinset] at this
            exact this.2 hecp
        have := Finset.card_lt_card hss
        omega

lemma descends_shape (groups : List OGroup) (gid : Nat) :
    ∀ x, Descends groups gid x → x = gid ∨ x ∈ groups.map (fun g => g.id) := by
  intro x h
  induction h with
  | refl => exact Or.inl rfl
  | tail _ hstep _ =>
    obtain ⟨g, hg, hgid, -⟩ := hstep
    exact Or.inr (by rw [← hgid]; exact List.mem_map_of_mem _ hg)

/-- The `toDelete` set computed by the handler's repeated parent-child
closure is exactly the target group together with its descendants. -/
lemma toDelete_iff (groups : List OGroup) (gid : Nat) :
    ∀ x, x ∈ toDelete groups gid ↔ Descends groups gid x := by
  have hfix : closPass groups (toDelete groups gid) = toDelete groups gid := by
    apply closLoop_fixed groups (gid :: groups.map (fun g => g.id))
    · intro g hg
      exact List.mem_cons_of_mem _ (List.mem_map_of_mem _ hg)
    · intro x hx
      have : x = gid := by simpa using hx
      rw [this]
      exact List.mem_cons_self _ _
    · have h1 : ((gid :: groups.map (fun g => g.id)).toFinset \
          ([gid] : List Nat).toFinset).card ≤
          ((gid :: groups.map (fun g => g.id)).toFinset.erase gid).card := by
        apply Finset.card_le_card
        intro x hx
        rw [Finset.mem_sdiff] at hx
        rw [Finset.mem_erase]
        refine ⟨?_, hx.1⟩
        intro hxg
        exact hx.2 (by rw [List.mem_toFinset, hxg]; exact List.mem_cons_self _ _)
      have h2 : ((gid :: groups.map (fun g => g.id)).toFinset.erase gid).card <
          (gid :: groups.map (fun g => g.id)).toFinset.card := by
        apply Finset.card_erase_lt_of_mem
        rw [List.mem_toFinset]
        exact List.mem_cons_self _ _
      have h3 : (gid :: groups.map (fun g => g.id)).toFinset.card ≤
          (gid :: groups.map (fun g => g.id)).length :=
        List.toFinset_card_le _
      have h4 : (gid :: groups.map (fun g => g.id)).length =
          groups.length + 1 := by
        rw [List.length_cons, List.length_map]
      omega
  intro x
  constructor
  · intro hx
    apply closLoop_sound groups gid (groups.length + 1) [gid]
    · intro y hy
      have : y = gid := by simpa using hy
      rw [this]
      exact Relation.ReflTransGen.refl
    · exact hx
  · intro hx
    induction hx with
    | refl =>
      exact closLoop_contains groups (groups.length + 1) [gid] gid
        (List.mem_cons_self _ _)
    | @tail b c hxy hstep ih =>
      obtain ⟨g, hg, hgid, hparent⟩ := hstep
      have hfalse : childOfMarked g (toDelete groups gid) = false :=
        foldl_step_stable groups groups (toDelete groups gid) hfix g hg
      by_cases hin : g.id ∈ toDelete groups gid
      · rw [← hgid]
        exact hin
      · exfalso
        have htrue : childOfMarked g (toDelete groups gid) = true := by
          unfold childOfMarked
          rw [hparent]
          show (decide (b ∈ toDelete groups gid) &&
            decide (g.id ∉ toDelete groups gid)) = true
          rw [decide_eq_true ih, decide_eq_true hin]
          rfl
        rw [hfalse] at htrue
        exact Bool.noConfusion htrue

/-- Responses of the DELETE option-group handler (404 / 400-conflict /
200 with deletion counts). -/
inductive DelResp where
  | notFound
  | conflict
  | okDeleted (groupsDeleted optionsDeleted variantsDeleted : Nat)
deriving DecidableEq, Repr

/-- The ids of the groups to delete: the rows whose id is in the closure
set. -/
def delGroupIds (db : Catalog) (gid : Nat) : List Nat :=
  (db.groups.filter (fun g => decide (g.id ∈ toDelete db.groups gid))).map
    (fun g => g.id)

/-- The ids of every option owned by a deleted group. -/
def delOptionIds (db : Catalog) (gid : Nat) : List Nat :=
  (db.options.filter (fun o => decide (o.optionGroupId ∈ delGroupIds db gid))).map
    (fun o => o.id)

/-- The ids of every variant using one of those options (`[]` when no
options are affected, as in the source's `optionIds.length ? ... : []`). -/
def delVariantIds (db : Catalog) (gid : Nat) : List Nat :=
  if (delOptionIds db gid).isEmpty then []
  else
    (db.variants.filter (fun v =>
      v.options.any (fun oi => decide (oi ∈ delOptionIds db gid)))).map
      (fun v => v.id)

/-- The `(a, b) => (b.level || 0) - (a.level || 0)` sort of the deletion
transaction, modelled as insertion sort by descending level. -/
def sortByLevelDesc (l : List OGroup) : List OGroup :=
  l.insertionSort (fun a b => b.level ≤ a.level)

/-- DELETE /api/product-options/groups/:groupId — collect the descendant
closure, the affected options and variants; refuse with a conflict when an
order item references an affected variant; otherwise delete the variants
and then the groups one by one, deepest level first (their options go
away with the groups through the `ON DELETE CASCADE` foreign key). -/
def deleteOptionGroup (db : Catalog) (gid : Nat) : Catalog × DelResp :=
  match db.groups.find? (fun g => g.id == gid) with
  | none => (db, .notFound)
  | some _ =>
    if db.orderItemVariantIds.any (fun r =>
        match r with
        | some vid => decide (vid ∈ delVariantIds db gid)
        | none => false) then
      (db, .conflict)
    else
      ({ groups :=
          (sortByLevelDesc (db.groups.filter
            (fun g => decide (g.id ∈ toDelete db.groups gid)))).foldl
            (fun gs g => gs.filter (fun h => decide (h.id ≠ g.id))) db.groups
         options := db.options.filter
          (fun o => decide (o.optionGroupId ∉ delGroupIds db gid))
         variants := db.variants.filter
          (fun v => decide (v.id ∉ delVariantIds db gid))
         orderItemVariantIds := db.orderItemVariantIds },
        .okDeleted (delGroupIds db gid).length (delOptionIds db gid).length
          (delVariantIds db gid).length)

/-- A variant is affected by the deletion set when one of its options
belongs to a group of the set. -/
def affectedVariant (db : Catalog) (del : List Nat) (v : VRow) : Prop :=
  ∃ oi ∈ v.options, ∃ o ∈ db.options, o.id = oi ∧ o.optionGroupId ∈ del

lemma sortByLevelDesc_sorted (l : List OGroup) :
    (sortByLevelDesc l).Pairwise (fun a b => b.level ≤ a.level) := by
  haveI h1 : IsTotal OGroup (fun a b => b.level ≤ a.level) :=
    ⟨fun a b => le_total b.level a.level⟩
  haveI h2 : IsTrans OGroup (fun a b => b.level ≤ a.level) :=
    ⟨fun _ _ _ hab hbc => le_trans hbc hab⟩
  exact List.sorted_insertionSort _ l

lemma sortByLevelDesc_perm (l : List OGroup) : List.Perm (sortByLevelDesc l) l :=
  List.perm_insertionSort _ l

lemma mem_delGroupIds_iff (db : Catalog) (gid : Nat)
    (hfind : ∃ g ∈ db.groups, g.id = gid) :
    ∀ x, x ∈ delGroupIds db gid ↔ x ∈ toDelete db.groups gid := by
  intro x
  unfold delGroupIds
  simp only [List.mem_map, List.mem_filter]
  constructor
  · rintro ⟨g, ⟨hg, hdec⟩, hgid⟩
    rw [← hgid]
    exact of_decide_eq_true hdec
  · intro hx
    rcases descends_shape db.groups gid x ((toDelete_iff db.groups gid x).1 hx)
      with heq | hmap
    · obtain ⟨g, hg, hgid⟩ := hfind
      subst heq
      exact ⟨g, ⟨hg, decide_eq_true (by rw [hgid]; exact hx)⟩, hgid⟩
    · simp only [List.mem_map] at hmap
      obtain ⟨g, hg, hgid⟩ := hmap
      exact ⟨g, ⟨hg, decide_eq_true (by rw [hgid]; exact hx)⟩, hgid⟩

lemma mem_delOptionIds_iff (db : Catalog) (gid : Nat)
    (hfind : ∃ g ∈ db.groups, g.id = gid) :
    ∀ oi, oi ∈ delOptionIds db gid ↔
      ∃ o ∈ db.options, o.id = oi ∧ o.optionGroupId ∈ toDelete db.groups gid := by
  intro oi
  unfold delOptionIds
  simp only [List.mem_map, List.mem_filter]
  constructor
  · rintro ⟨o, ⟨ho, hdec⟩, hoid⟩
    exact ⟨o, ho, hoid,
      (mem_delGroupIds_iff db gid hfind o.optionGroupId).1 (of_decide_eq_true hdec)⟩
  · rintro ⟨o, ho, hoid, hdel⟩
    exact ⟨o, ⟨ho, decide_eq_true
      ((mem_delGroupIds_iff db gid hfind o.optionGroupId).2 hdel)⟩, hoid⟩

lemma mem_delVariantIds_iff (db : Catalog) (gid : Nat)
    (hfind : ∃ g ∈ db.groups, g.id = gid) :
    ∀ vid, vid ∈ delVariantIds db gid ↔
      ∃ v ∈ db.variants, v.id = vid ∧
        affectedVariant db (toDelete db.groups gid) v := by
  intro vid
  unfold delVariantIds
  rcases he : (delOptionIds db gid).isEmpty with _ | _
  · rw [if_neg (by simp [he])]
    simp only [List.mem_map, List.mem_filter]
    constructor
    · rintro ⟨v, ⟨hv, hany⟩, hvid⟩
      rw [List.any_eq_true] at hany
      obtain ⟨oi, hoi, hdec⟩ := hany
      obtain ⟨o, ho, hoid, hdel⟩ :=
        (mem_delOptionIds_iff db gid hfind oi).1 (of_decide_eq_true hdec)
      exact ⟨v, hv, hvid, oi, hoi, o, ho, hoid, hdel⟩
    · rintro ⟨v, hv, hvid, oi, hoi, o, ho, hoid, hdel⟩
      refine ⟨v, ⟨hv, ?_⟩, hvid⟩
      rw [List.any_eq_true]
      exact ⟨oi, hoi, decide_eq_true
        ((mem_delOptionIds_iff db gid hfind oi).2 ⟨o, ho, hoid, hdel⟩)⟩
  · rw [if_pos rfl]
    constructor
    · intro hx
      exact absurd hx (List.not_mem_nil vid)
    · rintro ⟨v, hv, hvid, oi, hoi, o, ho, hoid, hdel⟩
      exfalso
      have hmem : oi ∈ delOptionIds db gid :=
        (mem_delOptionIds_iff db gid hfind oi).2 ⟨o, ho, hoid, hdel⟩
      rcases hl : delOptionIds db gid with _ | ⟨a, t⟩
      · rw [hl] at hmem
        exact absurd hmem (List.not_mem_nil oi)
      · rw [hl] at he
        exact Bool.noConfusion he

lemma eq_of_mem_of_nodup_map (l : List VRow)
    (hnd : (l.map (fun v => v.id)).Nodup) :
    ∀ a ∈ l, ∀ b ∈ l, a.id = b.id → a = b := by
  induction l with
  | nil => intro a ha; exact absurd ha (List.not_mem_nil a)
  | cons x t ih =>
    intro a ha b hb hab
    have hnd2 : (x.id :: t.map (fun v => v.id)).Nodup := by
      rw [← List.map_cons]
      exact hnd
    have hhead := (List.nodup_cons.1 hnd2).1
    have htail := (List.nodup_cons.1 hnd2).2
    rcases List.mem_cons.1 ha with ha1 | ha2 <;> rcases List.mem_cons.1 hb with hb1 | hb2
    · rw [ha1, hb1]
    · subst ha1
      exact absurd (hab ▸ List.mem_map_of_mem (fun v => v.id) hb2) hhead
    · subst hb1
      exact absurd (hab ▸ List.mem_map_of_mem (fun v => v.id) ha2) hhead
    · exact ih htail a ha2 b hb2 hab

lemma foldl_removeById :
    ∀ (del : List OGroup) (rows : List OGroup),
      del.foldl (fun gs g => gs.filter (fun h => decide (h.id ≠ g.id))) rows =
        rows.filter (fun h => decide (h.id ∉ del.map (fun g => g.id))) := by
  intro del
  induction del with
  | nil =>
    intro rows
    symm
    apply List.filter_eq_self.2
    intro h _
    simp
  | cons g t ih =>
    intro rows
    rw [List.foldl_cons, ih, List.filter_filter]
    apply List.filter_congr
    intro h _
    by_cases h1 : h.id = g.id <;>
      by_cases h2 : h.id ∈ List.map (fun g => g.id) t <;>
        simp [h1, h2]

/-- C6: deleting an option group collects the group and its descendants by
repeated parent-child closure; if any variant built from their options is
referenced by an order item the call returns a conflict and deletes
nothing, and otherwise it removes exactly those groups (their options with
them) and the affected variants, issuing the group deletions deepest level
first. -/
theorem delete_option_group_cascade
    (db : Catalog) (gid : Nat)
    (hfind : ∃ g ∈ db.groups, g.id = gid)
    (hvids : (db.variants.map (fun v => v.id)).Nodup) :
    (∀ x, x ∈ toDelete db.groups gid ↔ Descends db.groups gid x) ∧
    ((∃ r ∈ db.orderItemVariantIds, ∃ vid, r = some vid ∧
        ∃ v ∈ db.variants, v.id = vid ∧
          affectedVariant db (toDelete db.groups gid) v) →
      deleteOptionGroup db gid = (db, .conflict)) ∧
    ((¬ ∃ r ∈ db.orderItemVariantIds, ∃ vid, r = some vid ∧
        ∃ v ∈ db.variants, v.id = vid ∧
          affectedVariant db (toDelete db.groups gid) v) →
      (∀ g, g ∈ (deleteOptionGroup db gid).1.groups ↔
        (g ∈ db.groups ∧ ¬ Descends db.groups gid g.id)) ∧
      (∀ o, o ∈ (deleteOptionGroup db gid).1.options ↔
        (o ∈ db.options ∧ ¬ Descends db.groups gid o.optionGroupId)) ∧
      (∀ v, v ∈ (deleteOptionGroup db gid).1.variants ↔
        (v ∈ db.variants ∧ ¬ affectedVariant db (toDelete db.groups gid) v)) ∧
      (deleteOptionGroup db gid).1.orderItemVariantIds = db.orderItemVariantIds ∧
      (deleteOptionGroup db gid).2 = .okDeleted (delGroupIds db gid).length
        (delOptionIds db gid).length (delVariantIds db gid).length) ∧
    ((sortByLevelDesc (db.groups.filter
        (fun g => decide (g.id ∈ toDelete db.groups gid)))).Pairwise
          (fun a b => b.level ≤ a.level) ∧
      List.Perm (sortByLevelDesc (db.groups.filter
        (fun g => decide (g.id ∈ toDelete db.groups gid))))
        (db.groups.filter (fun g => decide (g.id ∈ toDelete db.groups gid)))) := by
  obtain ⟨g0, hg0, hg0id⟩ := hfind
  have hfind2 : ∃ g ∈ db.groups, g.id = gid := ⟨g0, hg0, hg0id⟩
  have hf : ∃ gg, db.groups.find? (fun g => g.id == gid) = some gg := by
    rw [← Option.isSome_iff_exists, List.find?_isSome]
    exact ⟨g0, hg0, by simp [hg0id]⟩
  obtain ⟨gg, hgg⟩ := hf
  have hanyiff : (db.orderItemVariantIds.any (fun r =>
      match r with
      | some vid => decide (vid ∈ delVariantIds db gid)
      | none => false) = true) ↔
      (∃ r ∈ db.orderItemVariantIds, ∃ vid, r = some vid ∧
        ∃ v ∈ db.variants, v.id = vid ∧
          affectedVariant db (toDelete db.groups gid) v) := by
    rw [List.any_eq_true]
    constructor
    · rintro ⟨r, hr, hm⟩
      rcases r with _ | vid
      · simp at hm
      · exact ⟨some vid, hr, vid, rfl,
          (mem_delVariantIds_iff db gid hfind2 vid).1 (of_decide_eq_true hm)⟩
    · rintro ⟨r, hr, vid, hrv, hv⟩
      subst hrv
      exact ⟨some vid, hr,
        decide_eq_true ((mem_delVariantIds_iff db gid hfind2 vid).2 hv)⟩
  refine ⟨toDelete_iff db.groups gid, ?_, ?_,
    sortByLevelDesc_sorted _, sortByLevelDesc_perm _⟩
  · intro hex
    simp only [deleteOptionGroup, hgg]
    rw [if_pos (hanyiff.2 hex)]
  · intro hnex
    have hany : db.orderItemVariantIds.any (fun r =>
        match r with
        | some vid => decide (vid ∈ delVariantIds db gid)
        | none => false) = false := by
      rcases h : db.orderItemVariantIds.any (fun r =>
          match r with
          | some vid => decide (vid ∈ delVariantIds db gid)
          | none => false) with _ | _
      · rfl
      · exact absurd (hanyiff.1 h) hnex
    have hres : deleteOptionGroup db gid =
        ({ groups :=
            (sortByLevelDesc (db.groups.filter
              (fun g => decide (g.id ∈ toDelete db.groups gid)))).foldl
              (fun gs g => gs.filter (fun h => decide (h.id ≠ g.id))) db.groups
           options := db.options.filter
            (fun o => decide (o.optionGroupId ∉ delGroupIds db gid))
           variants := db.variants.filter
            (fun v => decide (v.id ∉ delVariantIds db gid))
           orderItemVariantIds := db.orderItemVariantIds },
          .okDeleted (delGroupIds db gid).length (delOptionIds db gid).length
            (delVariantIds db gid).length) := by
      simp only [deleteOptionGroup, hgg]
      rw [if_neg (by rw [hany]; simp)]
    have hmemiff : ∀ x, (x ∈ (sortByLevelDesc (db.groups.filter
        (fun g => decide (g.id ∈ toDelete db.groups gid)))).map (fun g => g.id)) ↔
        Descends db.groups gid x := by
      intro x
      rw [List.Perm.mem_iff (List.Perm.map (fun g => g.id) (sortByLevelDesc_perm
        (db.groups.filter (fun g => decide (g.id ∈ toDelete db.groups gid)))))]
      exact (mem_delGroupIds_iff db gid hfind2 x).trans (toDelete_iff db.groups gid x)
    refine ⟨?_, ?_, ?_, ?_, ?_⟩
    · intro g
      rw [hres]
      show g ∈ (sortByLevelDesc (db.groups.filter
          (fun g => decide (g.id ∈ toDelete db.groups gid)))).foldl
          (fun gs g => gs.filter (fun h => decide (h.id ≠ g.id))) db.groups ↔ _
      rw [foldl_removeById]
      simp only [List.mem_filter, decide_eq_true_eq]
      exact and_congr_right (fun _ => not_congr (hmemiff g.id))
    · intro o
      rw [hres]
      show o ∈ db.options.filter
          (fun o => decide (o.optionGroupId ∉ delGroupIds db gid)) ↔ _
      simp only [List.mem_filter, decide_eq_true_eq]
      exact and_congr_right (fun _ => not_congr
        ((mem_delGroupIds_iff db gid hfind2 o.optionGroupId).trans
          (toDelete_iff db.groups gid o.optionGroupId)))
    · intro v
      rw [hres]
      show v ∈ db.variants.filter
          (fun v => decide (v.id ∉ delVariantIds db gid)) ↔ _
      simp only [List.mem_filter, decide_eq_true_eq]
      constructor
      · rintro ⟨hv, hnot⟩
        refine ⟨hv, ?_⟩
        intro haff
        exact hnot ((mem_delVariantIds_iff db gid hfind2 v.id).2 ⟨v, hv, rfl, haff⟩)
      · rintro ⟨hv, hnaff⟩
        refine ⟨hv, ?_⟩
        intro hmem
        obtain ⟨w, hw, hwid, hwaff⟩ :=
          (mem_delVariantIds_iff db gid hfind2 v.id).1 hmem
        have hvw : w = v := eq_of_mem_of_nodup_map db.variants hvids w hw v hv hwid
        exact hnaff (hvw ▸ hwaff)
    · rw [hres]
    · rw [hres]

/-- Witness for C6's conflict case: group 1 has child group 2 whose option
10 builds variant 5, and an order item references variant 5, so the delete
refuses and leaves the catalog unchanged. -/
theorem delete_option_group_cascade_witness :
    deleteOptionGroup
      ⟨[OGroup.mk 1 none 1 true, OGroup.mk 2 (some 1) 2 false],
        [ORow.mk 10 2], [VRow.mk 5 1 0 [10]], [some 5]⟩ 1 =
      (⟨[OGroup.mk 1 none 1 true, OGroup.mk 2 (some 1) 2 false],
        [ORow.mk 10 2], [VRow.mk 5 1 0 [10]], [some 5]⟩, .conflict) := by
  have hw := (delete_option_group_cascade
    ⟨[OGroup.mk 1 none 1 true, OGroup.mk 2 (some 1) 2 false],
      [ORow.mk 10 2], [VRow.mk 5 1 0 [10]], [some 5]⟩ 1
    ⟨OGroup.mk 1 none 1 true, by decide, rfl⟩ (by decide)).2.1
  exact hw ⟨some 5, by decide, 5, rfl, VRow.mk 5 1 0 [10], by decide, rfl,
    10, by decide, ORow.mk 10 2, by decide, rfl, by decide⟩

/-- Responses of the option-group create and update handlers. -/
inductive UpdResp where
  | notFound : UpdResp
  | badRequest : UpdResp
  | okUpdated : UpdResp
  | okCreated : UpdResp
deriving DecidableEq, Repr

/-- The row rewrite performed by the update handler: the matching group row
receives the new `parentGroupId`, `level` and `isParent` values. -/
def applyGroupUpdate (groups : List OGroup) (gid : Nat)
    (parentGroupId : Option Nat) (isParentB : Bool) (levelN : Nat) :
    List OGroup :=
  groups.map (fun g =>
    if g.id == gid then OGroup.mk g.id parentGroupId levelN isParentB else g)

/-- POST /api/product-options/:productId/groups: when a `parentGroupId` is
given the handler checks only that the parent row exists and is marked
`isParent`, then inserts the new group row. -/
def createOptionGroup (groups : List OGroup) (newId : Nat)
    (parentGroupId : Option Nat) (isParentB : Bool) (levelN : Nat) :
    List OGroup × UpdResp :=
  match parentGroupId with
  | some pid =>
    match groups.find? (fun g => g.id == pid) with
    | none => (groups, .badRequest)
    | some parentGroup =>
      if parentGroup.isParent then
        (groups ++ [OGroup.mk newId parentGroupId levelN isParentB], .okCreated)
      else (groups, .badRequest)
  | none => (groups ++ [OGroup.mk newId none levelN isParentB], .okCreated)

/-- PUT /api/product-options/groups/:groupId: parent validation (existence,
`isParent`, and the `parentGroupId === groupId` check) runs only when a
parent id is supplied that differs from the stored one; the row is then
rewritten in place. -/
def updateOptionGroupParent (groups : List OGroup) (gid : Nat)
    (parentGroupId : Option Nat) (isParentB : Bool) (levelN : Nat) :
    List OGroup × UpdResp :=
  match groups.find? (fun g => g.id == gid) with
  | none => (groups, .notFound)
  | some existingGroup =>
    match parentGroupId with
    | some pid =>
      if some pid ≠ existingGroup.parentGroupId then
        match groups.find? (fun g => g.id == pid) with
        | none => (groups, .badRequest)
        | some parentGroup =>
          if !parentGroup.isParent then (groups, .badRequest)
          else if pid == gid then (groups, .badRequest)
          else (applyGroupUpdate groups gid parentGroupId isParentB levelN,
            .okUpdated)
      else (applyGroupUpdate groups gid parentGroupId isParentB levelN,
        .okUpdated)
    | none => (applyGroupUpdate groups gid parentGroupId isParentB levelN,
      .okUpdated)

/-- The two-group tree on which the update handler accepts a cycle. -/
def cycleGroups : List OGroup :=
  [OGroup.mk 1 none 1 true, OGroup.mk 2 (some 1) 2 true]

/-- C7 counterexample: with group 2 a child of group 1, updating group 1 to
have parent 2 is accepted (okUpdated) even though it makes group 1 its own
ancestor — afterwards the parent-child relation has a cycle through 1. -/
theorem group_cycle_check_counterexample :
    (updateOptionGroupParent cycleGroups 1 (some 2) true 1).2 = .okUpdated ∧
    Relation.TransGen
      (ChildStep (updateOptionGroupParent cycleGroups 1 (some 2) true 1).1)
      1 1 := by
  have hgs : (updateOptionGroupParent cycleGroups 1 (some 2) true 1).1 =
      [OGroup.mk 1 (some 2) 1 true, OGroup.mk 2 (some 1) 2 true] := by decide
  refine ⟨by decide, ?_⟩
  rw [hgs]
  have step1 : ChildStep
      [OGroup.mk 1 (some 2) 1 true, OGroup.mk 2 (some 1) 2 true] 1 2 :=
    ⟨OGroup.mk 2 (some 1) 2 true, by decide, rfl, rfl⟩
  have step2 : ChildStep
      [OGroup.mk 1 (some 2) 1 true, OGroup.mk 2 (some 1) 2 true] 2 1 :=
    ⟨OGroup.mk 1 (some 2) 1 true, by decide, rfl, rfl⟩
  exact Relation.TransGen.head step1 (Relation.TransGen.single step2)

/-- C7 (amended): the only cycle prevention in the update handler is the
direct self-parent test — when the supplied parent id equals the group's
own id (and differs from the stored parent), the call answers 400 and the
tree is unchanged. Indirect cycles are not checked (see the
counterexample). -/
theorem group_cycle_check_direct_only
    (groups : List OGroup) (gid : Nat) (g : OGroup) (b : Bool) (n : Nat)
    (hfind : groups.find? (fun h => h.id == gid) = some g)
    (hnp : g.parentGroupId ≠ some gid) :
    updateOptionGroupParent groups gid (some gid) b n =
      (groups, .badRequest) := by
  simp only [updateOptionGroupParent, hfind]
  rw [if_pos (fun hc => hnp hc.symm)]
  rcases hp : g.isParent with _ | _
  · simp [hp]
  · simp [hp]

/-- Witness for C7's amended theorem on a one-group tree: setting the
group's parent to itself is rejected with the tree unchanged. -/
theorem group_cycle_check_direct_only_witness :
    updateOptionGroupParent [OGroup.mk 1 none 1 true] 1 (some 1) true 1 =
      ([OGroup.mk 1 none 1 true], .badRequest) :=
  group_cycle_check_direct_only [OGroup.mk 1 none 1 true] 1
    (OGroup.mk 1 none 1 true) true 1 rfl (by decide)

end Shoppink
